import Mathlib

/-!
Verification development for the call-tree aggregation engine of the
heaptrack GUI parser (`src/gui/parser.cpp`).

The C++ source is shallowly embedded below.  Machine integers
(`quint64`/`uint64_t`) are modelled as `Nat`: none of the verified
properties depends on wrap-around behaviour (every equation proved here
also holds after reduction mod 2^64, because both sides reduce the same
sums).  Qt containers are modelled as lists: `QVector` as a `List`,
`QHash`/`QMap` as association lists whose insertion operations mirror the
Qt semantics actually exercised by the source (key lookup, insert-or-
replace, size).  Localisation (`i18n`) is modelled as the identity on the
string literal, since localisation is out of scope for the core.
-/

namespace Heaptrack

/-- The four cost fields shared by allocation records and tree rows
(`allocations`, `peak`, `leaked`, `allocated` in the source). -/
structure Costs where
  allocations : Nat
  peak : Nat
  leaked : Nat
  allocated : Nat
deriving DecidableEq, Repr

instance : Add Costs where
  add a b := ⟨a.allocations + b.allocations, a.peak + b.peak,
              a.leaked + b.leaked, a.allocated + b.allocated⟩

instance : Zero Costs where
  zero := ⟨0, 0, 0, 0⟩

theorem Costs.add_def (a b : Costs) :
    a + b = ⟨a.allocations + b.allocations, a.peak + b.peak,
             a.leaked + b.leaked, a.allocated + b.allocated⟩ := rfl

theorem Costs.zero_def : (0 : Costs) = ⟨0, 0, 0, 0⟩ := rfl

theorem Costs.add_assoc (a b c : Costs) : a + b + c = a + (b + c) := by
  simp [Costs.add_def, Nat.add_assoc]

theorem Costs.add_zero (a : Costs) : a + 0 = a := by
  simp [Costs.add_def, Costs.zero_def]

theorem Costs.zero_add (a : Costs) : 0 + a = a := by
  simp [Costs.add_def, Costs.zero_def]

theorem Costs.add_comm (a b : Costs) : a + b = b + a := by
  simp [Costs.add_def, Nat.add_comm]

instance : AddCommMonoid Costs where
  add_assoc := Costs.add_assoc
  zero_add := Costs.zero_add
  add_zero := Costs.add_zero
  add_comm := Costs.add_comm
  nsmul := nsmulRec

/-- Modelled from the spec: the resolved symbolic identity of a call-stack
frame (`LocationData`, declared in the GUI headers which are outside
`src/`): function display name, source file, module, source line.  Two
locations are equal iff all fields are equal. -/
structure LocationData where
  function : String
  file : String
  module : String
  line : Nat
deriving DecidableEq, Repr

/-- Lexicographic comparison of character lists by code point, the
standard string order (kernel-reducible, unlike the iterator-based
library order). -/
def charsLtB : List Char → List Char → Bool
  | [], [] => false
  | [], _ :: _ => true
  | _ :: _, [] => false
  | c :: cs, d :: ds =>
    if c.toNat < d.toNat then true
    else if d.toNat < c.toNat then false
    else charsLtB cs ds

/-- QString comparison, modelled as lexicographic order by code point. -/
def strLtB (a b : String) : Bool :=
  charsLtB a.data b.data

theorem char_eq_of_toNat_eq {a b : Char} (h : a.toNat = b.toNat) : a = b :=
  Char.ext (UInt32.ext h)

theorem charsLtB_irrefl : ∀ l : List Char, charsLtB l l = false := by
  intro l
  induction l with
  | nil => rfl
  | cons c cs ih => simp [charsLtB, Nat.lt_irrefl, ih]

theorem charsLtB_trans :
    ∀ (a b c : List Char), charsLtB a b = true → charsLtB b c = true →
      charsLtB a c = true := by
  intro a
  induction a with
  | nil =>
    intro b c hab hbc
    cases b with
    | nil => cases hab
    | cons y ys =>
      cases c with
      | nil => cases hbc
      | cons z zs => rfl
  | cons x xs ih =>
    intro b c hab hbc
    cases b with
    | nil => cases hab
    | cons y ys =>
      cases c with
      | nil => cases hbc
      | cons z zs =>
        simp only [charsLtB] at hab hbc ⊢
        by_cases hxy : x.toNat < y.toNat
        · by_cases hyz : y.toNat < z.toNat
          · simp [Nat.lt_trans hxy hyz]
          · by_cases hzy : z.toNat < y.toNat
            · simp [hyz, hzy] at hbc
            · have : y.toNat = z.toNat := by omega
              simp [this ▸ hxy]
        · by_cases hyx : y.toNat < x.toNat
          · simp [hxy, hyx] at hab
          · have hxyeq : x.toNat = y.toNat := by omega
            simp only [hxy, if_false, hyx, if_false] at hab
            by_cases hyz : y.toNat < z.toNat
            · simp [hxyeq ▸ hyz]
            · by_cases hzy : z.toNat < y.toNat
              · simp [hyz, hzy] at hbc
              · have hyzeq : y.toNat = z.toNat := by omega
                simp only [hyz, if_false, hzy, if_false] at hbc
                have h1 : ¬x.toNat < z.toNat := by omega
                have h2 : ¬z.toNat < x.toNat := by omega
                simp [h1, h2, ih ys zs hab hbc]

theorem charsLtB_asymm :
    ∀ (a b : List Char), charsLtB a b = true → charsLtB b a = false := by
  intro a
  induction a with
  | nil =>
    intro b hab
    cases b with
    | nil => cases hab
    | cons y ys => rfl
  | cons x xs ih =>
    intro b hab
    cases b with
    | nil => cases hab
    | cons y ys =>
      simp only [charsLtB] at hab ⊢
      by_cases hxy : x.toNat < y.toNat
      · have h1 : ¬y.toNat < x.toNat := by omega
        simp [h1, hxy]
      · by_cases hyx : y.toNat < x.toNat
        · simp [hxy, hyx] at hab
        · simp only [hxy, if_false, hyx, if_false] at hab
          simp [hxy, hyx, ih ys hab]

theorem charsLtB_eq :
    ∀ (a b : List Char), charsLtB a b = false → charsLtB b a = false → a = b := by
  intro a
  induction a with
  | nil =>
    intro b hab _
    cases b with
    | nil => rfl
    | cons y ys => cases hab
  | cons x xs ih =>
    intro b hab hba
    cases b with
    | nil => cases hba
    | cons y ys =>
      simp only [charsLtB] at hab hba
      by_cases hxy : x.toNat < y.toNat
      · simp [hxy] at hab
      · by_cases hyx : y.toNat < x.toNat
        · simp [hxy, hyx] at hba
        · simp only [hxy, if_false, hyx, if_false] at hab hba
          have : x = y := char_eq_of_toNat_eq (by omega)
          rw [this, ih ys hab hba]

theorem strLtB_irrefl (s : String) : strLtB s s = false :=
  charsLtB_irrefl s.data

theorem strLtB_trans {a b c : String} (hab : strLtB a b = true)
    (hbc : strLtB b c = true) : strLtB a c = true :=
  charsLtB_trans a.data b.data c.data hab hbc

theorem strLtB_asymm {a b : String} (hab : strLtB a b = true) :
    strLtB b a = false :=
  charsLtB_asymm a.data b.data hab

theorem strLtB_eq {a b : String} (hab : strLtB a b = false)
    (hba : strLtB b a = false) : a = b := by
  have := charsLtB_eq a.data b.data hab hba
  cases a; cases b; simp_all

/-- Modelled from the spec: locations are totally ordered to support the
sorted-container merge, lexicographically over (function, file, module,
line), an order whose equivalence coincides with equality. -/
def locLt (a b : LocationData) : Bool :=
  strLtB a.function b.function ||
    (decide (a.function = b.function) &&
      (strLtB a.file b.file ||
        (decide (a.file = b.file) &&
          (strLtB a.module b.module ||
            (decide (a.module = b.module) && decide (a.line < b.line))))))

theorem locLt_iff (a b : LocationData) :
    locLt a b = true
      ↔ (strLtB a.function b.function = true
          ∨ (a.function = b.function
              ∧ (strLtB a.file b.file = true
                  ∨ (a.file = b.file
                      ∧ (strLtB a.module b.module = true
                          ∨ (a.module = b.module ∧ a.line < b.line)))))) := by
  simp [locLt]

theorem locLt_irrefl (a : LocationData) : locLt a a = false := by
  cases h : locLt a a with
  | false => rfl
  | true =>
    exfalso
    rcases (locLt_iff a a).mp h with h1 | ⟨-, h1 | ⟨-, h1 | ⟨-, h1⟩⟩⟩
    · rw [strLtB_irrefl] at h1; cases h1
    · rw [strLtB_irrefl] at h1; cases h1
    · rw [strLtB_irrefl] at h1; cases h1
    · exact Nat.lt_irrefl _ h1

theorem locLt_trans {a b c : LocationData}
    (hab : locLt a b = true) (hbc : locLt b c = true) : locLt a c = true := by
  rw [locLt_iff] at hab hbc ⊢
  rcases hab with h1 | ⟨e1, hab⟩
  · rcases hbc with h2 | ⟨e2, -⟩
    · exact Or.inl (strLtB_trans h1 h2)
    · exact Or.inl (e2 ▸ h1)
  · rcases hbc with h2 | ⟨e2, hbc⟩
    · exact Or.inl (e1 ▸ h2)
    · refine Or.inr ⟨e1.trans e2, ?_⟩
      rcases hab with h1 | ⟨f1, hab⟩
      · rcases hbc with h2 | ⟨f2, -⟩
        · exact Or.inl (strLtB_trans h1 h2)
        · exact Or.inl (f2 ▸ h1)
      · rcases hbc with h2 | ⟨f2, hbc⟩
        · exact Or.inl (f1 ▸ h2)
        · refine Or.inr ⟨f1.trans f2, ?_⟩
          rcases hab with h1 | ⟨g1, hab⟩
          · rcases hbc with h2 | ⟨g2, -⟩
            · exact Or.inl (strLtB_trans h1 h2)
            · exact Or.inl (g2 ▸ h1)
          · rcases hbc with h2 | ⟨g2, hbc⟩
            · exact Or.inl (g1 ▸ h2)
            · exact Or.inr ⟨g1.trans g2, Nat.lt_trans hab hbc⟩

theorem locLt_asymm {a b : LocationData}
    (hab : locLt a b = true) : locLt b a = false := by
  cases h : locLt b a with
  | false => rfl
  | true =>
    exfalso
    have := locLt_trans hab h
    rw [locLt_irrefl] at this
    cases this

theorem eq_of_not_locLt {a b : LocationData}
    (hab : locLt a b = false) (hba : locLt b a = false) : a = b := by
  rw [← Bool.not_eq_true, locLt_iff] at hab hba
  push_neg at hab hba
  have hf : a.function = b.function := by
    refine strLtB_eq ?_ ?_
    · cases h : strLtB a.function b.function with
      | false => rfl
      | true => exact absurd h hab.1
    · cases h : strLtB b.function a.function with
      | false => rfl
      | true => exact absurd h hba.1
  have hab2 := hab.2 hf
  have hba2 := hba.2 hf.symm
  have hfi : a.file = b.file := by
    refine strLtB_eq ?_ ?_
    · cases h : strLtB a.file b.file with
      | false => rfl
      | true => exact absurd h hab2.1
    · cases h : strLtB b.file a.file with
      | false => rfl
      | true => exact absurd h hba2.1
  have hab3 := hab2.2 hfi
  have hba3 := hba2.2 hfi.symm
  have hm : a.module = b.module := by
    refine strLtB_eq ?_ ?_
    · cases h : strLtB a.module b.module with
      | false => rfl
      | true => exact absurd h hab3.1
    · cases h : strLtB b.module a.module with
      | false => rfl
      | true => exact absurd h hba3.1
  have hl : a.line = b.line := by
    have h1 := hab3.2 hm
    have h2 := hba3.2 hm.symm
    omega
  cases a; cases b
  simp_all

theorem locLt_total (a b : LocationData) :
    locLt a b = true ∨ locLt b a = true ∨ a = b := by
  cases hab : locLt a b
  · cases hba : locLt b a
    · exact Or.inr (Or.inr (eq_of_not_locLt hab hba))
    · exact Or.inr (Or.inl rfl)
  · exact Or.inl rfl

/-- `StringIndex`/`IpIndex`/`TraceIndex` are 1-based indices; 0 means
"invalid/unknown".  An instruction-pointer record as supplied by the
external trace store (`InstructionPointer` of `accumulatedtracedata.h`,
modelled from the spec's frame-lookup interface). -/
structure InstructionPointer where
  instructionPointer : Nat
  functionIndex : Nat
  fileIndex : Nat
  moduleIndex : Nat
  line : Nat
deriving DecidableEq, Repr

/-- A node of the parent-linked stack-trace table: its frame's
instruction-pointer index and the index of the caller's trace node
(0 = no caller).  Modelled from the spec: "given a trace-chain reference,
return its frame's raw pointer record and its caller's trace-chain
reference (or none)". -/
structure TraceNode where
  ipIndex : Nat
  parentIndex : Nat
deriving DecidableEq, Repr

/-- An allocation record (`Allocation` of `accumulatedtracedata.h`,
modelled from the spec): a trace-chain leaf reference plus the four cost
fields. -/
structure Allocation where
  traceIndex : Nat
  allocations : Nat
  peak : Nat
  leaked : Nat
  allocated : Nat
deriving DecidableEq, Repr

def Allocation.costs (a : Allocation) : Costs :=
  ⟨a.allocations, a.peak, a.leaked, a.allocated⟩

/-- The read-only external trace store visible to the parser:
the growing string table, the instruction-pointer table, the parent-linked
trace table, the boundary ("stop") function indices, and the allocation
records.  Modelled from the spec (§6 external interfaces); the tables are
1-based as in the source. -/
structure TraceData where
  strings : List String
  ips : List InstructionPointer
  traces : List TraceNode
  stopIndices : List Nat
  allocations : List Allocation
deriving Repr

/-- `StringCache::stringify`: a string index resolves to the table entry
at position `index - 1`, or to the empty string when the index is zero or
exceeds the table size. -/
def stringify (strings : List String) (index : Nat) : String :=
  if index = 0 ∨ strings.length < index then "" else strings.getD (index - 1) ""

/-- `StringCache::func`: a frame with a known function index resolves to
its name; otherwise a stable hexadecimal address string `0x…` is
synthesized (the `m_ipAddresses` memo cache only avoids recomputation and
is semantically transparent, so it is not modelled). -/
def funcOf (strings : List String) (ip : InstructionPointer) : String :=
  if ip.functionIndex ≠ 0 then stringify strings ip.functionIndex
  else "0x" ++ String.mk (Nat.toDigits 16 ip.instructionPointer)

/-- `StringCache::file`: empty when the file index is zero. -/
def fileOf (strings : List String) (ip : InstructionPointer) : String :=
  if ip.fileIndex ≠ 0 then stringify strings ip.fileIndex else ""

/-- `StringCache::module`. -/
def moduleOf (strings : List String) (ip : InstructionPointer) : String :=
  stringify strings ip.moduleIndex

/-- `StringCache::location`. -/
def locationOf (strings : List String) (ip : InstructionPointer) : LocationData :=
  ⟨funcOf strings ip, fileOf strings ip, moduleOf strings ip, ip.line⟩

/-- `AccumulatedTraceData::findTrace`.  Modelled from the spec: a
trace-chain reference that cannot be followed (index 0 or out of range)
is treated as "no caller"/reached the synthetic root. -/
def TraceData.findTrace (d : TraceData) (index : Nat) : Option TraceNode :=
  if 1 ≤ index ∧ index ≤ d.traces.length then some (d.traces.getD (index - 1) ⟨0, 0⟩)
  else none

/-- `AccumulatedTraceData::findIp`.  Modelled from the spec: an
unresolvable instruction-pointer index yields the all-zero record, which
the Location Resolver absorbs into placeholder strings. -/
def TraceData.findIp (d : TraceData) (index : Nat) : InstructionPointer :=
  if 1 ≤ index ∧ index ≤ d.ips.length then d.ips.getD (index - 1) ⟨0, 0, 0, 0, 0⟩
  else ⟨0, 0, 0, 0, 0⟩

/-- `AccumulatedTraceData::isStopIndex`: membership of the function index
in the configured boundary set.  Modelled from the spec ("boundary frame"
predicate). -/
def TraceData.isStopIndex (d : TraceData) (functionIndex : Nat) : Bool :=
  d.stopIndices.contains functionIndex

/-- One step of the stack walk of `mergeAllocations`: the sequence of
resolved Locations visited from the allocation's leaf frame toward the
root, stopping after the first boundary frame or when the chain ends
(`while (traceIndex) { … if (isStopIndex) break; traceIndex = parent; }`).
`fuel` bounds the walk; `tracePath` supplies fuel that is exact whenever
the trace table is well-formed (each node's parent index is smaller than
its own index, which holds for the append-only table the ingester
builds). -/
def tracePathAux (d : TraceData) : Nat → Nat → List LocationData
  | 0, _ => []
  | fuel + 1, traceIndex =>
    match d.findTrace traceIndex with
    | none => []
    | some trace =>
      let ip := d.findIp trace.ipIndex
      let loc := locationOf d.strings ip
      if d.isStopIndex ip.functionIndex then [loc]
      else loc :: tracePathAux d fuel trace.parentIndex

/-- The full walked call path of one allocation, leaf frame first. -/
def tracePath (d : TraceData) (traceIndex : Nat) : List LocationData :=
  tracePathAux d traceIndex traceIndex

/-- A tree row of either forest (`RowData` of the GUI headers, modelled
from the spec): four aggregated cost fields, a Location, and the ordered
children.  The parent back-reference of the source is not stored: it is
assigned only by the post-pass `setParents` once the shape is frozen, and
it then coincides with the ancestor chain, which the functional embedding
passes explicitly (`buildTopDown` below). -/
inductive RowData where
  | mk (costs : Costs) (location : LocationData) (children : List RowData)

def RowData.costs : RowData → Costs
  | .mk c _ _ => c

def RowData.location : RowData → LocationData
  | .mk _ l _ => l

def RowData.children : RowData → List RowData
  | .mk _ _ cs => cs

/-- The per-frame find-or-insert of `mergeAllocations`:
`lower_bound(rows->begin(), rows->end(), location)` over the sorted
sibling list, then either merge the allocation's costs into the equal row
or insert a fresh row at the found position; afterwards the walk descends
into that row's children with the remaining path.  The recursion skips
exactly the rows `lower_bound` would skip. -/
def insertPath : List RowData → List LocationData → Costs → List RowData
  | rows, [], _ => rows
  | [], loc :: rest, c => [⟨c, loc, insertPath [] rest c⟩]
  | r :: rs, loc :: rest, c =>
    if locLt r.location loc then r :: insertPath rs (loc :: rest) c
    else if r.location = loc then
      ⟨r.costs + c, r.location, insertPath r.children rest c⟩ :: rs
    else ⟨c, loc, insertPath [] rest c⟩ :: r :: rs
termination_by rows path _ => (path.length, rows.length)

/-- `mergeAllocations`: fold every allocation's walked call path into the
bottom-up forest.  (`setParents` only fills the parent back-references
and does not change shape or costs, so it is the identity here.) -/
def mergeAllocations (d : TraceData) : List RowData :=
  d.allocations.foldl
    (fun rows a => insertPath rows (tracePath d a.traceIndex) a.costs) []

/-- `findByLocation`: the first row of a sibling list with the given
location, as used by `buildTopDown`. -/
def findByLocation (loc : LocationData) (rows : List RowData) : Option RowData :=
  rows.find? (fun r => r.location = loc)

/-- The per-leaf climb of `buildTopDown`: for the chain of Locations from
a bottom-up leaf up to the outermost caller, find-or-insert a node at each
level of the top-down output (`findByLocation`, appending a fresh
zero-cost node at the back when absent) and add the leaf's own aggregated
totals at every level, then descend. -/
def addChain : List LocationData → Costs → List RowData → List RowData
  | [], _, td => td
  | loc :: rest, c, [] => [⟨0 + c, loc, addChain rest c []⟩]
  | loc :: rest, c, r :: rs =>
    if r.location = loc then
      ⟨r.costs + c, r.location, addChain rest c r.children⟩ :: rs
    else r :: addChain (loc :: rest) c rs
termination_by chain _ td => (chain.length, td.length)

/-- `buildTopDown`: depth-first over the bottom-up forest; a row with no
children is a leaf whose parent chain (leaf Location first, then the
ancestors up to the forest root, exactly the chain the source walks via
the finalized parent pointers) is folded into the top-down output with
the leaf's own totals; a row with children is only recursed into. -/
def buildTopDown : List RowData → List LocationData → List RowData → List RowData
  | [], _, td => td
  | r :: rs, ancestors, td =>
    let td' := if r.children.isEmpty
      then addChain (r.location :: ancestors) r.costs td
      else buildTopDown r.children (r.location :: ancestors) td
    buildTopDown rs ancestors td'
termination_by bu _ _ => sizeOf bu
decreasing_by
  all_goals cases r with
  | mk c l cs => simp [RowData.children] <;> omega

/-- `toTopDownData`. -/
def toTopDownData (bottomUpData : List RowData) : List RowData :=
  buildTopDown bottomUpData [] []

/-! Observation functions on forests, used to state the claims. -/

/-- Total cost at a path: the summed costs of every node reached by the
given depth-and-Location path from the forest root (in a duplicate-free
forest this is the unique such node's cost, or zero if absent). -/
def costAt : List RowData → List LocationData → Costs
  | _, [] => 0
  | [], _ :: _ => 0
  | r :: rs, loc :: rest =>
    (if r.location = loc then (if rest.isEmpty then r.costs else costAt r.children rest) else 0)
      + costAt rs (loc :: rest)
termination_by rows path => (path.length, rows.length)

/-- The node reached by a depth-and-Location path (first match at each
level). -/
def findPath : List RowData → List LocationData → Option RowData
  | _, [] => none
  | rows, loc :: rest =>
    match rows.find? (fun r => r.location = loc) with
    | some r => if rest.isEmpty then some r else findPath r.children rest
    | none => none

/-- Whether some node lies at the given nonempty path. -/
def hasNode : List RowData → List LocationData → Bool
  | _, [] => false
  | rows, loc :: rest =>
    rows.any fun r => r.location = loc && (rest.isEmpty || hasNode r.children rest)
termination_by rows path => path.length
decreasing_by simp [*] <;> omega

/-- Whether some childless node (leaf) lies at the given nonempty path. -/
def leafAt : List RowData → List LocationData → Bool
  | _, [] => false
  | rows, loc :: rest =>
    rows.any fun r =>
      r.location = loc &&
        (if rest.isEmpty then r.children.isEmpty else leafAt r.children rest)
termination_by rows path => path.length
decreasing_by simp [*] <;> omega

/-- Sum of the root-level rows' cost fields. -/
def rootCostSum (rows : List RowData) : Costs :=
  rows.foldr (fun r acc => r.costs + acc) 0

/-- Sum of the cost fields over a list of allocation records. -/
def allocCostSum (allocs : List Allocation) : Costs :=
  allocs.foldr (fun a acc => a.costs + acc) 0

mutual

/-- Sibling lists strictly sorted by Location, recursively. -/
def rowSorted : RowData → Bool
  | .mk _ _ cs => forestSorted cs

def forestSorted : List RowData → Bool
  | [] => true
  | [r] => rowSorted r
  | r :: s :: rs => locLt r.location s.location && rowSorted r && forestSorted (s :: rs)

end

mutual

/-- No two rows of any sibling list share a Location, recursively. -/
def rowDedup : RowData → Bool
  | .mk _ _ cs => forestDedup cs

def forestDedup : List RowData → Bool
  | [] => true
  | r :: rs =>
    rs.all (fun s => decide (s.location ≠ r.location)) && rowDedup r && forestDedup rs

end

mutual

/-- Sum of the costs of a row's leaves (its own cost when childless). -/
def rowLeafSum : RowData → Costs
  | .mk c _ [] => c
  | .mk _ _ (r :: rs) => forestLeafSum (r :: rs)

def forestLeafSum : List RowData → Costs
  | [] => 0
  | r :: rs => rowLeafSum r + forestLeafSum rs

end

/-- Spec-side characterization for the top-down inversion: the summed
contribution the spec assigns to a top-down path `q` — every bottom-up
leaf whose upward chain (own Location first, then the ancestors toward
the forest root) passes through `q` contributes its own aggregated
totals; rows with children contribute nothing directly. -/
def specLeafContributionSum (q : List LocationData) :
    List RowData → List LocationData → Costs
  | [], _ => 0
  | r :: rs, ancestors =>
    (if r.children.isEmpty
      then (if q ≠ [] ∧ q <+: (r.location :: ancestors) then r.costs else 0)
      else specLeafContributionSum q r.children (r.location :: ancestors))
      + specLeafContributionSum q rs ancestors
termination_by rows _ => sizeOf rows
decreasing_by
  all_goals cases r with
  | mk c l cs => simp [RowData.children] <;> omega

/-! Lemmas about `insertPath` and the bottom-up forest. -/

theorem costAt_nil_path (rows : List RowData) : costAt rows [] = 0 := by
  cases rows <;> simp [costAt]

theorem costAt_nil (p : List LocationData) : costAt [] p = 0 := by
  cases p <;> simp [costAt]

theorem costAt_cons (r : RowData) (rs : List RowData) (loc : LocationData)
    (rest : List LocationData) :
    costAt (r :: rs) (loc :: rest) =
      (if r.location = loc then (if rest.isEmpty then r.costs else costAt r.children rest) else 0)
        + costAt rs (loc :: rest) := by
  simp [costAt]

/-- Each insertion of one walked path adds the allocation's costs exactly
at the nonempty prefixes of that path. -/
theorem costAt_insertPath (path : List LocationData) :
    ∀ (rows : List RowData) (c : Costs) (q : List LocationData),
      costAt (insertPath rows path c) q =
        costAt rows q + (if q ≠ [] ∧ q <+: path then c else 0) := by
  induction path with
  | nil =>
    intro rows c q
    simp only [insertPath, List.prefix_nil]
    rw [if_neg (by rintro ⟨h1, h2⟩; exact h1 h2), add_zero]
  | cons loc rest ih =>
    intro rows c q
    match q with
    | [] => simp [costAt_nil_path]
    | m :: ms =>
      induction rows with
      | nil =>
        rw [show insertPath [] (loc :: rest) c = [⟨c, loc, insertPath [] rest c⟩]
            from by simp [insertPath]]
        rw [costAt_cons]
        simp only [costAt_nil, add_zero, zero_add, RowData.location, RowData.costs,
          RowData.children]
        by_cases hm : loc = m
        · rw [if_pos hm]
          cases ms with
          | nil =>
            simp only [List.isEmpty_nil, if_true]
            have hcnd : ([m] : List LocationData) ≠ [] ∧ [m] <+: loc :: rest :=
              ⟨by simp, by simp [List.cons_prefix_cons, hm]⟩
            rw [if_pos hcnd]
          | cons m' ms' =>
            simp only [List.isEmpty_cons, Bool.false_eq_true, if_false]
            rw [ih [] c (m' :: ms'), costAt_nil, zero_add]
            have hiff : (m :: m' :: ms' ≠ [] ∧ m :: m' :: ms' <+: loc :: rest)
                ↔ (m' :: ms' ≠ [] ∧ m' :: ms' <+: rest) := by
              simp [List.cons_prefix_cons, hm]
            by_cases hpre : m' :: ms' ≠ [] ∧ m' :: ms' <+: rest
            · rw [if_pos hpre, if_pos (hiff.mpr hpre)]
            · rw [if_neg hpre, if_neg (fun hc => hpre (hiff.mp hc))]
        · rw [if_neg hm]
          have : ¬(m :: ms ≠ [] ∧ m :: ms <+: loc :: rest) := by
            simp only [List.cons_prefix_cons]
            rintro ⟨-, h1, -⟩
            exact hm h1.symm
          rw [if_neg this]
      | cons r rs ihr =>
        obtain ⟨rc, rl, rch⟩ := r
        by_cases hlt : locLt rl loc
        · rw [show insertPath (⟨rc, rl, rch⟩ :: rs) (loc :: rest) c
              = ⟨rc, rl, rch⟩ :: insertPath rs (loc :: rest) c
              from by simp [insertPath, RowData.location, hlt]]
          rw [costAt_cons, costAt_cons, ihr]
          exact (add_assoc _ _ _).symm
        · by_cases heq : rl = loc
          · rw [show insertPath (⟨rc, rl, rch⟩ :: rs) (loc :: rest) c
                = ⟨rc + c, rl, insertPath rch rest c⟩ :: rs
                from by simp [insertPath, RowData.location, RowData.costs,
                  RowData.children, hlt, heq, locLt_irrefl]]
            rw [costAt_cons, costAt_cons]
            simp only [RowData.location, RowData.costs, RowData.children]
            by_cases hm : rl = m
            · rw [if_pos hm, if_pos hm]
              cases ms with
              | nil =>
                simp only [List.isEmpty_nil, if_true]
                have hcnd : ([m] : List LocationData) ≠ [] ∧ [m] <+: loc :: rest :=
                  ⟨by simp, by simp [List.cons_prefix_cons, ← hm, heq]⟩
                rw [if_pos hcnd]
                abel
              | cons m' ms' =>
                simp only [List.isEmpty_cons, Bool.false_eq_true, if_false]
                rw [ih rch c (m' :: ms')]
                have hiff : (m :: m' :: ms' ≠ [] ∧ m :: m' :: ms' <+: loc :: rest)
                    ↔ (m' :: ms' ≠ [] ∧ m' :: ms' <+: rest) := by
                  simp [List.cons_prefix_cons, ← hm, heq]
                by_cases hpre : m' :: ms' ≠ [] ∧ m' :: ms' <+: rest
                · rw [if_pos hpre, if_pos (hiff.mpr hpre)]; abel
                · rw [if_neg hpre, if_neg (fun hc => hpre (hiff.mp hc))]; abel
            · rw [if_neg hm, if_neg hm]
              have : ¬(m :: ms ≠ [] ∧ m :: ms <+: loc :: rest) := by
                simp only [List.cons_prefix_cons]
                rintro ⟨-, h1, -⟩
                exact hm (heq.trans h1.symm)
              rw [if_neg this]
              abel
          · rw [show insertPath (⟨rc, rl, rch⟩ :: rs) (loc :: rest) c
                = ⟨c, loc, insertPath [] rest c⟩ :: ⟨rc, rl, rch⟩ :: rs
                from by simp [insertPath, RowData.location, hlt, heq]]
            rw [costAt_cons, costAt_cons]
            simp only [RowData.location, RowData.costs, RowData.children]
            by_cases hm : loc = m
            · rw [if_pos hm]
              have hrm : rl = m → False := fun hc => heq (hc.trans hm.symm)
              cases ms with
              | nil =>
                simp only [List.isEmpty_nil, if_true]
                have hcnd : ([m] : List LocationData) ≠ [] ∧ [m] <+: loc :: rest :=
                  ⟨by simp, by simp [List.cons_prefix_cons, hm]⟩
                rw [if_pos hcnd]
                abel
              | cons m' ms' =>
                simp only [List.isEmpty_cons, Bool.false_eq_true, if_false]
                rw [ih [] c (m' :: ms'), costAt_nil, zero_add]
                have hiff : (m :: m' :: ms' ≠ [] ∧ m :: m' :: ms' <+: loc :: rest)
                    ↔ (m' :: ms' ≠ [] ∧ m' :: ms' <+: rest) := by
                  simp [List.cons_prefix_cons, hm]
                by_cases hpre : m' :: ms' ≠ [] ∧ m' :: ms' <+: rest
                · rw [if_pos hpre, if_pos (hiff.mpr hpre)]; abel
                · rw [if_neg hpre, if_neg (fun hc => hpre (hiff.mp hc))]; abel
            · rw [if_neg hm]
              have : ¬(m :: ms ≠ [] ∧ m :: ms <+: loc :: rest) := by
                simp only [List.cons_prefix_cons]
                rintro ⟨-, h1, -⟩
                exact hm h1.symm
              rw [if_neg this]
              abel

theorem allocCostSum_nil : allocCostSum [] = 0 := rfl

theorem allocCostSum_cons (a : Allocation) (as : List Allocation) :
    allocCostSum (a :: as) = a.costs + allocCostSum as := rfl

/-- Folding a list of allocations into a forest adds, at every nonempty
path `q`, exactly the summed costs of the allocations whose walked call
path has `q` as a prefix. -/
theorem costAt_foldl_insertPath (d : TraceData) (q : List LocationData) (hq : q ≠ []) :
    ∀ (as : List Allocation) (rows : List RowData),
      costAt (as.foldl (fun rows a => insertPath rows (tracePath d a.traceIndex) a.costs) rows) q
        = costAt rows q
            + allocCostSum (as.filter fun a => decide (q <+: tracePath d a.traceIndex)) := by
  intro as
  induction as with
  | nil => intro rows; simp [allocCostSum_nil]
  | cons a as ih =>
    intro rows
    rw [List.foldl_cons, ih (insertPath rows (tracePath d a.traceIndex) a.costs),
      costAt_insertPath]
    by_cases hpre : q <+: tracePath d a.traceIndex
    · rw [if_pos ⟨hq, hpre⟩, show (a :: as).filter
          (fun a => decide (q <+: tracePath d a.traceIndex))
          = a :: as.filter (fun a => decide (q <+: tracePath d a.traceIndex))
          from by simp [List.filter_cons, hpre], allocCostSum_cons]
      abel
    · rw [if_neg (fun hc => hpre hc.2), show (a :: as).filter
          (fun a => decide (q <+: tracePath d a.traceIndex))
          = as.filter (fun a => decide (q <+: tracePath d a.traceIndex))
          from by simp [List.filter_cons, hpre], add_zero]

theorem costAt_mergeAllocations (d : TraceData) (q : List LocationData) (hq : q ≠ []) :
    costAt (mergeAllocations d) q
      = allocCostSum (d.allocations.filter fun a => decide (q <+: tracePath d a.traceIndex)) := by
  rw [mergeAllocations, costAt_foldl_insertPath d q hq, costAt_nil, zero_add]

/-! Sortedness and deduplication of sibling lists. -/

/-- The head of a sibling list is strictly above `r` in the Location
order (vacuously true for an empty list). -/
def headLt (r : RowData) (rows : List RowData) : Bool :=
  match rows.head?.map RowData.location with
  | none => true
  | some l => locLt r.location l

theorem forestSorted_nil : forestSorted [] = true := by simp [forestSorted]

theorem rowSorted_mk (c : Costs) (l : LocationData) (cs : List RowData) :
    rowSorted (.mk c l cs) = forestSorted cs := by simp [rowSorted]

theorem forestSorted_cons (r : RowData) (rs : List RowData) :
    forestSorted (r :: rs) = (headLt r rs && rowSorted r && forestSorted rs) := by
  cases rs with
  | nil => simp [forestSorted, headLt]
  | cons s ss => simp [forestSorted, headLt]

theorem forestDedup_nil : forestDedup [] = true := by simp [forestDedup]

theorem rowDedup_mk (c : Costs) (l : LocationData) (cs : List RowData) :
    rowDedup (.mk c l cs) = forestDedup cs := by simp [rowDedup]

theorem forestDedup_cons (r : RowData) (rs : List RowData) :
    forestDedup (r :: rs)
      = (rs.all (fun s => decide (s.location ≠ r.location)) && rowDedup r
          && forestDedup rs) := by
  simp [forestDedup]

/-- The head of an updated sibling list keeps the old head's Location or
carries the inserted Location. -/
theorem insertPath_headLoc (loc : LocationData) (rest : List LocationData)
    (c : Costs) (rows : List RowData) :
    (insertPath rows (loc :: rest) c).head?.map RowData.location
        = rows.head?.map RowData.location
      ∨ (insertPath rows (loc :: rest) c).head?.map RowData.location = some loc := by
  cases rows with
  | nil =>
    right
    simp [insertPath, RowData.location]
  | cons r rs =>
    by_cases hlt : locLt r.location loc
    · left
      rw [show insertPath (r :: rs) (loc :: rest) c
          = r :: insertPath rs (loc :: rest) c from by simp [insertPath, hlt]]
      simp
    · by_cases heq : r.location = loc
      · left
        rw [show insertPath (r :: rs) (loc :: rest) c
            = ⟨r.costs + c, r.location, insertPath r.children rest c⟩ :: rs
            from by simp [insertPath, hlt, heq, locLt_irrefl]]
        simp [RowData.location]
      · right
        rw [show insertPath (r :: rs) (loc :: rest) c
            = ⟨c, loc, insertPath [] rest c⟩ :: r :: rs
            from by simp [insertPath, hlt, heq]]
        simp [RowData.location]

/-- `insertPath` keeps every sibling list strictly sorted: inserting via
the `lower_bound` walk preserves the sorted-vector invariant. -/
theorem forestSorted_insertPath (path : List LocationData) :
    ∀ (rows : List RowData) (c : Costs),
      forestSorted rows = true → forestSorted (insertPath rows path c) = true := by
  induction path with
  | nil => intro rows c hs; simpa [insertPath] using hs
  | cons loc rest ih =>
    intro rows c hs
    induction rows with
    | nil =>
      rw [show insertPath [] (loc :: rest) c = [⟨c, loc, insertPath [] rest c⟩]
          from by simp [insertPath]]
      rw [forestSorted_cons]
      simp only [headLt, List.head?_nil, Option.map_none, rowSorted_mk,
        forestSorted_nil, Bool.and_true, Bool.true_and]
      exact ih [] c forestSorted_nil
    | cons r rs ihr =>
      rw [forestSorted_cons] at hs
      simp only [Bool.and_eq_true] at hs
      obtain ⟨⟨hhd, hrow⟩, hrest⟩ := hs
      by_cases hlt : locLt r.location loc
      · rw [show insertPath (r :: rs) (loc :: rest) c
            = r :: insertPath rs (loc :: rest) c from by simp [insertPath, hlt]]
        rw [forestSorted_cons]
        simp only [Bool.and_eq_true]
        refine ⟨⟨?_, hrow⟩, ihr hrest⟩
        rcases insertPath_headLoc loc rest c rs with hh | hh
        · rw [headLt, hh]
          rw [headLt] at hhd
          exact hhd
        · rw [headLt, hh]
          exact hlt
      · by_cases heq : r.location = loc
        · rw [show insertPath (r :: rs) (loc :: rest) c
              = ⟨r.costs + c, r.location, insertPath r.children rest c⟩ :: rs
              from by simp [insertPath, hlt, heq, locLt_irrefl]]
          rw [forestSorted_cons]
          simp only [Bool.and_eq_true]
          refine ⟨⟨?_, ?_⟩, hrest⟩
          · rw [headLt] at hhd ⊢
            simpa [RowData.location] using hhd
          · rw [rowSorted_mk]
            obtain ⟨rc, rl, rch⟩ := r
            rw [rowSorted_mk] at hrow
            exact ih _ c hrow
        · rw [show insertPath (r :: rs) (loc :: rest) c
              = ⟨c, loc, insertPath [] rest c⟩ :: r :: rs
              from by simp [insertPath, hlt, heq]]
          rw [forestSorted_cons]
          simp only [Bool.and_eq_true]
          refine ⟨⟨?_, ?_⟩, ?_⟩
          · rw [headLt]
            simp only [List.head?_cons, Option.map_some, RowData.location]
            rcases locLt_total r.location loc with h | h | h
            · exact absurd h hlt
            · exact h
            · exact absurd h heq
          · rw [rowSorted_mk]
            exact ih [] c forestSorted_nil
          · rw [forestSorted_cons]
            simp only [Bool.and_eq_true]
            exact ⟨⟨hhd, hrow⟩, hrest⟩

theorem mergeAllocations_sorted (d : TraceData) :
    forestSorted (mergeAllocations d) = true := by
  rw [mergeAllocations]
  have : ∀ (as : List Allocation) (rows : List RowData), forestSorted rows = true →
      forestSorted (as.foldl
        (fun rows a => insertPath rows (tracePath d a.traceIndex) a.costs) rows) = true := by
    intro as
    induction as with
    | nil => intro rows hs; simpa using hs
    | cons a as ih =>
      intro rows hs
      exact ih _ (forestSorted_insertPath _ _ _ hs)
  exact this d.allocations [] forestSorted_nil

/-- In a sorted sibling list every later sibling is strictly above the
head. -/
theorem forestSorted_lt_of_mem :
    ∀ (rs : List RowData) (r : RowData), forestSorted (r :: rs) = true →
      ∀ s ∈ rs, locLt r.location s.location = true := by
  intro rs
  induction rs with
  | nil => intro r _ s hs; cases hs
  | cons t ts ih =>
    intro r hsort s hs
    rw [forestSorted_cons] at hsort
    simp only [Bool.and_eq_true] at hsort
    obtain ⟨⟨hhd, -⟩, hrest⟩ := hsort
    rw [headLt] at hhd
    simp only [List.head?_cons, Option.map_some] at hhd
    rw [List.mem_cons] at hs
    rcases hs with rfl | hs
    · exact hhd
    · exact locLt_trans hhd (ih t hrest s hs)

/-- Strictly sorted forests are duplicate-free at every sibling level. -/
theorem forestSorted_dedup :
    ∀ (n : Nat) (rows : List RowData), sizeOf rows ≤ n →
      forestSorted rows = true → forestDedup rows = true := by
  intro n
  induction n with
  | zero =>
    intro rows hsz
    cases rows with
    | nil => intro _; exact forestDedup_nil
    | cons r rs =>
      intro _
      exfalso
      obtain ⟨rc, rl, rch⟩ := r
      simp at hsz
  | succ n ih =>
    intro rows hsz hs
    cases rows with
    | nil => exact forestDedup_nil
    | cons r rs =>
      rw [forestDedup_cons]
      have hall : rs.all (fun s => decide (s.location ≠ r.location)) = true := by
        rw [List.all_eq_true]
        intro s hsmem
        have := forestSorted_lt_of_mem rs r hs s hsmem
        refine decide_eq_true (fun hc => ?_)
        rw [hc] at this
        rw [locLt_irrefl r.location] at this
        cases this
      rw [forestSorted_cons] at hs
      simp only [Bool.and_eq_true] at hs
      obtain ⟨⟨-, hrow⟩, hrest⟩ := hs
      have hszr : sizeOf rs ≤ n := by
        cases r with
        | mk rc rl rch => simp at hsz ⊢; omega
      have hdrest : forestDedup rs = true := ih rs hszr hrest
      obtain ⟨rc, rl, rch⟩ := r
      have hszc : sizeOf rch ≤ n := by simp at hsz ⊢; omega
      rw [rowSorted_mk] at hrow
      rw [rowDedup_mk]
      rw [hall, ih rch hszc hrow, hdrest]
      rfl

theorem mergeAllocations_dedup (d : TraceData) :
    forestDedup (mergeAllocations d) = true :=
  forestSorted_dedup (sizeOf (mergeAllocations d)) (mergeAllocations d) le_rfl
    (mergeAllocations_sorted d)

theorem costAt_zero_of_not_mem (loc : LocationData) (rest : List LocationData) :
    ∀ rows : List RowData, (∀ r ∈ rows, r.location ≠ loc) →
      costAt rows (loc :: rest) = 0 := by
  intro rows
  induction rows with
  | nil => intro _; exact costAt_nil _
  | cons r rs ih =>
    intro h
    rw [costAt_cons, if_neg (h r (List.mem_cons_self r rs)),
      ih (fun s hs => h s (List.mem_cons_of_mem r hs)), add_zero]

/-- In a duplicate-free forest, the cost at a path is the cost of the
(unique) node found there. -/
theorem costAt_eq_of_findPath :
    ∀ (p : List LocationData) (rows : List RowData) (r : RowData),
      forestDedup rows = true → findPath rows p = some r → costAt rows p = r.costs := by
  intro p
  induction p with
  | nil => intro rows r _ hf; simp [findPath] at hf
  | cons loc rest ih =>
    intro rows
    induction rows with
    | nil => intro r _ hf; simp [findPath] at hf
    | cons s ss ihs =>
      intro r hd hf
      rw [forestDedup_cons] at hd
      simp only [Bool.and_eq_true] at hd
      obtain ⟨⟨hall, hrowd⟩, hssd⟩ := hd
      by_cases hsl : s.location = loc
      · have hfind : (s :: ss).find? (fun t => decide (t.location = loc)) = some s := by
          simp [List.find?_cons, hsl]
        rw [findPath, hfind] at hf
        have hzero : costAt ss (loc :: rest) = 0 := by
          refine costAt_zero_of_not_mem loc rest ss (fun t ht => ?_)
          have := List.all_eq_true.mp hall t ht
          simp only [decide_eq_true_eq] at this
          rw [hsl] at this
          exact this
        rw [costAt_cons, if_pos hsl, hzero, add_zero]
        cases hrest : rest.isEmpty with
        | true =>
          rw [hrest] at hf
          simp only [if_true] at hf
          cases hf
          simp
        | false =>
          rw [hrest] at hf
          simp only [Bool.false_eq_true, if_false] at hf
          simp only [hrest, Bool.false_eq_true, if_false]
          obtain ⟨sc, sl, sch⟩ := s
          rw [rowDedup_mk] at hrowd
          exact ih sch r hrowd hf
      · have hfind : (s :: ss).find? (fun t => decide (t.location = loc))
            = ss.find? (fun t => decide (t.location = loc)) := by
          simp [List.find?_cons, hsl]
        rw [findPath, hfind] at hf
        rw [costAt_cons, if_neg hsl, zero_add]
        refine ihs r hssd ?_
        rw [findPath]
        exact hf

/-- Claim C2 key step: the cost stored at any realized node path of the
bottom-up forest is the sum over allocations sharing that call-path
prefix. -/
theorem findPath_ne_nil {rows : List RowData} {p : List LocationData} {r : RowData}
    (h : findPath rows p = some r) : p ≠ [] := by
  intro hp
  subst hp
  simp [findPath] at h

/-! Lemmas about `addChain` and the top-down forest. -/

theorem costAt_addChain (chain : List LocationData) :
    ∀ (c : Costs) (td : List RowData) (q : List LocationData),
      costAt (addChain chain c td) q =
        costAt td q + (if q ≠ [] ∧ q <+: chain then c else 0) := by
  induction chain with
  | nil =>
    intro c td q
    simp only [addChain, List.prefix_nil]
    rw [if_neg (by rintro ⟨h1, h2⟩; exact h1 h2), add_zero]
  | cons loc rest ih =>
    intro c td q
    match q with
    | [] => simp [costAt_nil_path]
    | m :: ms =>
      induction td with
      | nil =>
        rw [show addChain (loc :: rest) c [] = [⟨0 + c, loc, addChain rest c []⟩]
            from by simp [addChain]]
        rw [costAt_cons]
        simp only [costAt_nil, add_zero, zero_add, RowData.location, RowData.costs,
          RowData.children]
        by_cases hm : loc = m
        · rw [if_pos hm]
          cases ms with
          | nil =>
            simp only [List.isEmpty_nil, if_true]
            have hcnd : ([m] : List LocationData) ≠ [] ∧ [m] <+: loc :: rest :=
              ⟨by simp, by simp [List.cons_prefix_cons, hm]⟩
            rw [if_pos hcnd]
          | cons m' ms' =>
            simp only [List.isEmpty_cons, Bool.false_eq_true, if_false]
            rw [ih c [] (m' :: ms'), costAt_nil, zero_add]
            have hiff : (m :: m' :: ms' ≠ [] ∧ m :: m' :: ms' <+: loc :: rest)
                ↔ (m' :: ms' ≠ [] ∧ m' :: ms' <+: rest) := by
              simp [List.cons_prefix_cons, hm]
            by_cases hpre : m' :: ms' ≠ [] ∧ m' :: ms' <+: rest
            · rw [if_pos hpre, if_pos (hiff.mpr hpre)]
            · rw [if_neg hpre, if_neg (fun hc => hpre (hiff.mp hc))]
        · rw [if_neg hm]
          have : ¬(m :: ms ≠ [] ∧ m :: ms <+: loc :: rest) := by
            simp only [List.cons_prefix_cons]
            rintro ⟨-, h1, -⟩
            exact hm h1.symm
          rw [if_neg this]
      | cons r rs ihr =>
        obtain ⟨rc, rl, rch⟩ := r
        by_cases heq : rl = loc
        · rw [show addChain (loc :: rest) c (⟨rc, rl, rch⟩ :: rs)
              = ⟨rc + c, rl, addChain rest c rch⟩ :: rs
              from by simp [addChain, RowData.location, RowData.costs,
                RowData.children, heq]]
          rw [costAt_cons, costAt_cons]
          simp only [RowData.location, RowData.costs, RowData.children]
          by_cases hm : rl = m
          · rw [if_pos hm, if_pos hm]
            cases ms with
            | nil =>
              simp only [List.isEmpty_nil, if_true]
              have hcnd : ([m] : List LocationData) ≠ [] ∧ [m] <+: loc :: rest :=
                ⟨by simp, by simp [List.cons_prefix_cons, ← hm, heq]⟩
              rw [if_pos hcnd]
              abel
            | cons m' ms' =>
              simp only [List.isEmpty_cons, Bool.false_eq_true, if_false]
              rw [ih c rch (m' :: ms')]
              have hiff : (m :: m' :: ms' ≠ [] ∧ m :: m' :: ms' <+: loc :: rest)
                  ↔ (m' :: ms' ≠ [] ∧ m' :: ms' <+: rest) := by
                simp [List.cons_prefix_cons, ← hm, heq]
              by_cases hpre : m' :: ms' ≠ [] ∧ m' :: ms' <+: rest
              · rw [if_pos hpre, if_pos (hiff.mpr hpre)]; abel
              · rw [if_neg hpre, if_neg (fun hc => hpre (hiff.mp hc))]; abel
          · rw [if_neg hm, if_neg hm]
            have : ¬(m :: ms ≠ [] ∧ m :: ms <+: loc :: rest) := by
              simp only [List.cons_prefix_cons]
              rintro ⟨-, h1, -⟩
              exact hm (heq.trans h1.symm)
            rw [if_neg this]
            abel
        · rw [show addChain (loc :: rest) c (⟨rc, rl, rch⟩ :: rs)
              = ⟨rc, rl, rch⟩ :: addChain (loc :: rest) c rs
              from by simp [addChain, RowData.location, heq]]
          rw [costAt_cons, costAt_cons, ihr]
          exact (add_assoc _ _ _).symm

/-- Any row of the updated sibling list is either the inserted Location
or a Location already present. -/
theorem addChain_mem_loc (loc : LocationData) (rest : List LocationData) (c : Costs) :
    ∀ (td : List RowData) (s : RowData), s ∈ addChain (loc :: rest) c td →
      s.location = loc ∨ s.location ∈ td.map RowData.location := by
  intro td
  induction td with
  | nil =>
    intro s hs
    rw [show addChain (loc :: rest) c [] = [⟨0 + c, loc, addChain rest c []⟩]
        from by simp [addChain]] at hs
    rcases List.mem_singleton.mp hs with rfl
    left
    rfl
  | cons r rs ih =>
    intro s hs
    obtain ⟨rc, rl, rch⟩ := r
    by_cases heq : rl = loc
    · rw [show addChain (loc :: rest) c (⟨rc, rl, rch⟩ :: rs)
          = ⟨rc + c, rl, addChain rest c rch⟩ :: rs
          from by simp [addChain, RowData.location, RowData.costs,
            RowData.children, heq]] at hs
      rw [List.mem_cons] at hs
      rcases hs with rfl | hs
      · right; simp [RowData.location]
      · right
        simp only [List.map_cons, List.mem_cons]
        right
        exact List.mem_map_of_mem RowData.location hs
    · rw [show addChain (loc :: rest) c (⟨rc, rl, rch⟩ :: rs)
          = ⟨rc, rl, rch⟩ :: addChain (loc :: rest) c rs
          from by simp [addChain, RowData.location, heq]] at hs
      rw [List.mem_cons] at hs
      rcases hs with rfl | hs
      · right; simp [RowData.location]
      · rcases ih s hs with h | h
        · left; exact h
        · right; simp only [List.map_cons, List.mem_cons]; right; exact h

/-- `addChain` preserves duplicate-freedom of every sibling list. -/
theorem forestDedup_addChain (chain : List LocationData) :
    ∀ (c : Costs) (td : List RowData),
      forestDedup td = true → forestDedup (addChain chain c td) = true := by
  induction chain with
  | nil => intro c td h; simpa [addChain] using h
  | cons loc rest ih =>
    intro c td hd
    induction td with
    | nil =>
      rw [show addChain (loc :: rest) c [] = [⟨0 + c, loc, addChain rest c []⟩]
          from by simp [addChain]]
      rw [forestDedup_cons]
      simp only [List.all_nil, Bool.true_and, Bool.and_true, forestDedup_nil,
        rowDedup_mk]
      exact ih c [] forestDedup_nil
    | cons r rs ihr =>
      rw [forestDedup_cons] at hd
      simp only [Bool.and_eq_true] at hd
      obtain ⟨⟨hall, hrowd⟩, hrest⟩ := hd
      obtain ⟨rc, rl, rch⟩ := r
      by_cases heq : rl = loc
      · rw [show addChain (loc :: rest) c (⟨rc, rl, rch⟩ :: rs)
            = ⟨rc + c, rl, addChain rest c rch⟩ :: rs
            from by simp [addChain, RowData.location, RowData.costs,
              RowData.children, heq]]
        rw [forestDedup_cons]
        simp only [Bool.and_eq_true]
        refine ⟨⟨?_, ?_⟩, hrest⟩
        · simpa [RowData.location] using hall
        · rw [rowDedup_mk]
          rw [rowDedup_mk] at hrowd
          exact ih c rch hrowd
      · rw [show addChain (loc :: rest) c (⟨rc, rl, rch⟩ :: rs)
            = ⟨rc, rl, rch⟩ :: addChain (loc :: rest) c rs
            from by simp [addChain, RowData.location, heq]]
        rw [forestDedup_cons]
        simp only [Bool.and_eq_true]
        refine ⟨⟨?_, hrowd⟩, ihr hrest⟩
        rw [List.all_eq_true]
        intro s hs
        have hloc : s.location = loc ∨ s.location ∈ rs.map RowData.location :=
          addChain_mem_loc loc rest c rs s hs
        refine decide_eq_true ?_
        show s.location ≠ rl
        rcases hloc with h | h
        · rw [h]
          exact fun hc => heq hc.symm
        · simp only [List.mem_map] at h
          obtain ⟨t, ht, htl⟩ := h
          have hne : t.location ≠ rl := of_decide_eq_true (List.all_eq_true.mp hall t ht)
          rw [← htl]
          exact hne

theorem buildTopDown_nil (anc : List LocationData) (td : List RowData) :
    buildTopDown [] anc td = td := by simp [buildTopDown]

theorem buildTopDown_cons (r : RowData) (rs : List RowData)
    (anc : List LocationData) (td : List RowData) :
    buildTopDown (r :: rs) anc td
      = buildTopDown rs anc
          (if r.children.isEmpty then addChain (r.location :: anc) r.costs td
           else buildTopDown r.children (r.location :: anc) td) := by
  simp [buildTopDown]

theorem specLeafContributionSum_nil (q : List LocationData) (anc : List LocationData) :
    specLeafContributionSum q [] anc = 0 := by simp [specLeafContributionSum]

theorem specLeafContributionSum_cons (q : List LocationData) (r : RowData)
    (rs : List RowData) (anc : List LocationData) :
    specLeafContributionSum q (r :: rs) anc
      = (if r.children.isEmpty
          then (if q ≠ [] ∧ q <+: (r.location :: anc) then r.costs else 0)
          else specLeafContributionSum q r.children (r.location :: anc))
        + specLeafContributionSum q rs anc := by
  simp [specLeafContributionSum]

/-- The top-down builder adds, at every path `q` of its output, exactly
the spec-mandated leaf contributions: each bottom-up leaf's own totals at
every level of its upward chain, nothing from rows that have children. -/
theorem costAt_buildTopDown :
    ∀ (n : Nat) (bu : List RowData), sizeOf bu ≤ n →
      ∀ (anc : List LocationData) (td : List RowData) (q : List LocationData),
        costAt (buildTopDown bu anc td) q
          = costAt td q + specLeafContributionSum q bu anc := by
  intro n
  induction n with
  | zero =>
    intro bu hsz
    exfalso
    cases bu with
    | nil => simp at hsz
    | cons r rs => obtain ⟨rc, rl, rch⟩ := r; simp at hsz
  | succ n ih =>
    intro bu hsz anc td q
    cases bu with
    | nil => rw [buildTopDown_nil, specLeafContributionSum_nil, add_zero]
    | cons r rs =>
      obtain ⟨rc, rl, rch⟩ := r
      have hsrs : sizeOf rs ≤ n := by simp at hsz ⊢; omega
      have hsch : sizeOf rch ≤ n := by simp at hsz ⊢; omega
      rw [buildTopDown_cons, specLeafContributionSum_cons, ih rs hsrs]
      cases rch with
      | nil =>
        simp only [RowData.children, RowData.location, RowData.costs,
          List.isEmpty_nil, if_true, costAt_addChain]
        abel
      | cons x xs =>
        simp only [RowData.children, RowData.location, RowData.costs,
          List.isEmpty_cons, Bool.false_eq_true, if_false, ih (x :: xs) hsch]
        abel

/-- The top-down builder preserves duplicate-freedom. -/
theorem forestDedup_buildTopDown :
    ∀ (n : Nat) (bu : List RowData), sizeOf bu ≤ n →
      ∀ (anc : List LocationData) (td : List RowData),
        forestDedup td = true → forestDedup (buildTopDown bu anc td) = true := by
  intro n
  induction n with
  | zero =>
    intro bu hsz
    exfalso
    cases bu with
    | nil => simp at hsz
    | cons r rs => obtain ⟨rc, rl, rch⟩ := r; simp at hsz
  | succ n ih =>
    intro bu hsz anc td hd
    cases bu with
    | nil => rw [buildTopDown_nil]; exact hd
    | cons r rs =>
      obtain ⟨rc, rl, rch⟩ := r
      have hsrs : sizeOf rs ≤ n := by simp at hsz ⊢; omega
      have hsch : sizeOf rch ≤ n := by simp at hsz ⊢; omega
      rw [buildTopDown_cons]
      refine ih rs hsrs anc _ ?_
      cases rch with
      | nil =>
        simp only [RowData.children, RowData.location, RowData.costs,
          List.isEmpty_nil, if_true]
        exact forestDedup_addChain _ _ _ hd
      | cons x xs =>
        simp only [RowData.children, RowData.location, RowData.costs,
          List.isEmpty_cons, Bool.false_eq_true, if_false]
        exact ih (x :: xs) hsch _ _ hd

/-! Root-level cost sums. -/

theorem rootCostSum_nil : rootCostSum [] = 0 := rfl

theorem rootCostSum_cons (r : RowData) (rs : List RowData) :
    rootCostSum (r :: rs) = r.costs + rootCostSum rs := rfl

/-- Inserting a nonempty path adds the allocation's costs once at root
level. -/
theorem rootCostSum_insertPath :
    ∀ (path : List LocationData) (rows : List RowData) (c : Costs),
      rootCostSum (insertPath rows path c)
        = rootCostSum rows + (if path.isEmpty then 0 else c) := by
  intro path
  match path with
  | [] => intro rows c; simp [insertPath]
  | loc :: rest =>
    intro rows c
    simp only [List.isEmpty_cons, Bool.false_eq_true, if_false]
    induction rows with
    | nil =>
      rw [show insertPath [] (loc :: rest) c = [⟨c, loc, insertPath [] rest c⟩]
          from by simp [insertPath]]
      rw [rootCostSum_cons, rootCostSum_nil]
      simp [RowData.costs]
    | cons r rs ihr =>
      obtain ⟨rc, rl, rch⟩ := r
      by_cases hlt : locLt rl loc
      · rw [show insertPath (⟨rc, rl, rch⟩ :: rs) (loc :: rest) c
            = ⟨rc, rl, rch⟩ :: insertPath rs (loc :: rest) c
            from by simp [insertPath, RowData.location, hlt]]
        rw [rootCostSum_cons, rootCostSum_cons, ihr]
        abel
      · by_cases heq : rl = loc
        · rw [show insertPath (⟨rc, rl, rch⟩ :: rs) (loc :: rest) c
              = ⟨rc + c, rl, insertPath rch rest c⟩ :: rs
              from by simp [insertPath, RowData.location, RowData.costs,
                RowData.children, hlt, heq, locLt_irrefl]]
          rw [rootCostSum_cons, rootCostSum_cons]
          simp only [RowData.costs]
          abel
        · rw [show insertPath (⟨rc, rl, rch⟩ :: rs) (loc :: rest) c
              = ⟨c, loc, insertPath [] rest c⟩ :: ⟨rc, rl, rch⟩ :: rs
              from by simp [insertPath, RowData.location, hlt, heq]]
          rw [rootCostSum_cons, rootCostSum_cons]
          simp only [RowData.costs]
          abel

/-- A nonempty climb adds the leaf's costs once at the top-down root
level. -/
theorem rootCostSum_addChain :
    ∀ (chain : List LocationData) (c : Costs) (td : List RowData),
      rootCostSum (addChain chain c td)
        = rootCostSum td + (if chain.isEmpty then 0 else c) := by
  intro chain
  match chain with
  | [] => intro c td; simp [addChain]
  | loc :: rest =>
    intro c td
    simp only [List.isEmpty_cons, Bool.false_eq_true, if_false]
    induction td with
    | nil =>
      rw [show addChain (loc :: rest) c [] = [⟨0 + c, loc, addChain rest c []⟩]
          from by simp [addChain]]
      rw [rootCostSum_cons, rootCostSum_nil]
      simp [RowData.costs]
    | cons r rs ihr =>
      obtain ⟨rc, rl, rch⟩ := r
      by_cases heq : rl = loc
      · rw [show addChain (loc :: rest) c (⟨rc, rl, rch⟩ :: rs)
            = ⟨rc + c, rl, addChain rest c rch⟩ :: rs
            from by simp [addChain, RowData.location, RowData.costs,
              RowData.children, heq]]
        rw [rootCostSum_cons, rootCostSum_cons]
        simp only [RowData.costs]
        abel
      · rw [show addChain (loc :: rest) c (⟨rc, rl, rch⟩ :: rs)
            = ⟨rc, rl, rch⟩ :: addChain (loc :: rest) c rs
            from by simp [addChain, RowData.location, heq]]
        rw [rootCostSum_cons, rootCostSum_cons, ihr]
        abel

theorem forestLeafSum_nil : forestLeafSum [] = 0 := by simp [forestLeafSum]

theorem forestLeafSum_cons (r : RowData) (rs : List RowData) :
    forestLeafSum (r :: rs) = rowLeafSum r + forestLeafSum rs := by
  simp [forestLeafSum]

theorem rowLeafSum_mk_nil (c : Costs) (l : LocationData) :
    rowLeafSum (.mk c l []) = c := by simp [rowLeafSum]

theorem rowLeafSum_mk_cons (c : Costs) (l : LocationData) (x : RowData)
    (xs : List RowData) :
    rowLeafSum (.mk c l (x :: xs)) = forestLeafSum (x :: xs) := by
  simp [rowLeafSum]

/-- The top-down root-level total equals the summed costs of the
bottom-up leaves. -/
theorem rootCostSum_buildTopDown :
    ∀ (n : Nat) (bu : List RowData), sizeOf bu ≤ n →
      ∀ (anc : List LocationData) (td : List RowData),
        rootCostSum (buildTopDown bu anc td) = rootCostSum td + forestLeafSum bu := by
  intro n
  induction n with
  | zero =>
    intro bu hsz
    exfalso
    cases bu with
    | nil => simp at hsz
    | cons r rs => obtain ⟨rc, rl, rch⟩ := r; simp at hsz
  | succ n ih =>
    intro bu hsz anc td
    cases bu with
    | nil => rw [buildTopDown_nil, forestLeafSum_nil, add_zero]
    | cons r rs =>
      obtain ⟨rc, rl, rch⟩ := r
      have hsrs : sizeOf rs ≤ n := by simp at hsz ⊢; omega
      have hsch : sizeOf rch ≤ n := by simp at hsz ⊢; omega
      rw [buildTopDown_cons, forestLeafSum_cons, ih rs hsrs]
      cases rch with
      | nil =>
        simp only [RowData.children, RowData.location, RowData.costs,
          List.isEmpty_nil, if_true, rootCostSum_addChain, rowLeafSum_mk_nil]
        simp only [List.isEmpty_cons, Bool.false_eq_true, if_false]
        abel
      | cons x xs =>
        simp only [RowData.children, RowData.location, RowData.costs,
          List.isEmpty_cons, Bool.false_eq_true, if_false, ih (x :: xs) hsch,
          rowLeafSum_mk_cons]
        abel

/-- Root-level costs of the bottom-up forest: one contribution per
allocation whose walked path is nonempty. -/
theorem rootCostSum_mergeAllocations (d : TraceData) :
    rootCostSum (mergeAllocations d)
      = allocCostSum (d.allocations.filter
          fun a => !(tracePath d a.traceIndex).isEmpty) := by
  rw [mergeAllocations]
  have : ∀ (as : List Allocation) (rows : List RowData),
      rootCostSum (as.foldl
          (fun rows a => insertPath rows (tracePath d a.traceIndex) a.costs) rows)
        = rootCostSum rows
            + allocCostSum (as.filter fun a => !(tracePath d a.traceIndex).isEmpty) := by
    intro as
    induction as with
    | nil => intro rows; simp [allocCostSum_nil]
    | cons a as iha =>
      intro rows
      rw [List.foldl_cons, iha, rootCostSum_insertPath]
      cases hpath : (tracePath d a.traceIndex).isEmpty with
      | true =>
        rw [show (a :: as).filter (fun a => !(tracePath d a.traceIndex).isEmpty)
            = as.filter (fun a => !(tracePath d a.traceIndex).isEmpty)
            from by simp [List.filter_cons, hpath]]
        rw [if_pos rfl]
        abel
      | false =>
        rw [show (a :: as).filter (fun a => !(tracePath d a.traceIndex).isEmpty)
            = a :: as.filter (fun a => !(tracePath d a.traceIndex).isEmpty)
            from by simp [List.filter_cons, hpath], allocCostSum_cons]
        rw [if_neg (by simp [hpath])]
        abel
  rw [this d.allocations [], rootCostSum_nil, zero_add]

/-! Node-path and leaf-path bookkeeping, used for the conservation
analysis of the bottom-up/top-down pair. -/

theorem hasNode_nil_path (rows : List RowData) : hasNode rows [] = false := by
  simp [hasNode]

theorem hasNode_nil (m : LocationData) (ms : List LocationData) :
    hasNode [] (m :: ms) = false := by
  simp [hasNode]

theorem hasNode_cons (r : RowData) (rs : List RowData) (m : LocationData)
    (ms : List LocationData) :
    hasNode (r :: rs) (m :: ms)
      = ((decide (r.location = m) && (ms.isEmpty || hasNode r.children ms))
          || hasNode rs (m :: ms)) := by
  conv_lhs => rw [hasNode]
  conv_rhs => rw [hasNode]
  rw [List.any_cons]

theorem leafAt_nil_path (rows : List RowData) : leafAt rows [] = false := by
  simp [leafAt]

theorem leafAt_nil (m : LocationData) (ms : List LocationData) :
    leafAt [] (m :: ms) = false := by
  simp [leafAt]

theorem leafAt_cons (r : RowData) (rs : List RowData) (m : LocationData)
    (ms : List LocationData) :
    leafAt (r :: rs) (m :: ms)
      = ((decide (r.location = m)
            && (if ms.isEmpty then r.children.isEmpty else leafAt r.children ms))
          || leafAt rs (m :: ms)) := by
  conv_lhs => rw [leafAt]
  conv_rhs => rw [leafAt]
  rw [List.any_cons]

/-- The fresh chain built for a path not present realizes exactly the
nonempty prefixes of that path. -/
theorem hasNode_freshChain :
    ∀ (path : List LocationData) (c : Costs) (q : List LocationData),
      hasNode (insertPath [] path c) q = true ↔ (q ≠ [] ∧ q <+: path) := by
  intro path
  induction path with
  | nil =>
    intro c q
    rw [show insertPath [] [] c = [] from by simp [insertPath]]
    cases q with
    | nil => simp [hasNode_nil_path]
    | cons m ms => simp [hasNode_nil, List.prefix_nil]
  | cons loc rest ih =>
    intro c q
    rw [show insertPath [] (loc :: rest) c = [⟨c, loc, insertPath [] rest c⟩]
        from by simp [insertPath]]
    cases q with
    | nil => simp [hasNode_nil_path]
    | cons m ms =>
      rw [hasNode_cons, hasNode_nil]
      simp only [RowData.location, RowData.children, Bool.or_false,
        Bool.and_eq_true, decide_eq_true_eq, Bool.or_eq_true,
        List.isEmpty_eq_true, ne_eq, reduceCtorEq, not_false_eq_true, true_and,
        List.cons_prefix_cons, ih c ms]
      constructor
      · rintro ⟨rfl, h | ⟨-, h⟩⟩
        · exact ⟨rfl, h ▸ List.nil_prefix⟩
        · exact ⟨rfl, h⟩
      · rintro ⟨rfl, hpre⟩
        by_cases hms : ms = []
        · exact ⟨rfl, Or.inl hms⟩
        · exact ⟨rfl, Or.inr ⟨hms, hpre⟩⟩

/-- Inserting a path realizes exactly its nonempty prefixes as new node
paths. -/
theorem hasNode_insertPath (path : List LocationData) :
    ∀ (rows : List RowData) (c : Costs) (q : List LocationData),
      hasNode (insertPath rows path c) q = true
        ↔ (hasNode rows q = true ∨ (q ≠ [] ∧ q <+: path)) := by
  induction path with
  | nil =>
    intro rows c q
    rw [show insertPath rows [] c = rows from by simp [insertPath]]
    simp only [List.prefix_nil]
    constructor
    · exact fun h => Or.inl h
    · rintro (h | ⟨hne, hq⟩)
      · exact h
      · exact absurd hq hne
  | cons loc rest ih =>
    intro rows c q
    match q with
    | [] => simp [hasNode_nil_path]
    | m :: ms =>
      induction rows with
      | nil =>
        rw [hasNode_nil, hasNode_freshChain]
        simp
      | cons r rs ihr =>
        obtain ⟨rc, rl, rch⟩ := r
        by_cases hlt : locLt rl loc
        · rw [show insertPath (⟨rc, rl, rch⟩ :: rs) (loc :: rest) c
              = ⟨rc, rl, rch⟩ :: insertPath rs (loc :: rest) c
              from by simp [insertPath, RowData.location, hlt]]
          rw [hasNode_cons, hasNode_cons]
          simp only [Bool.or_eq_true, ihr]
          tauto
        · by_cases heq : rl = loc
          · rw [show insertPath (⟨rc, rl, rch⟩ :: rs) (loc :: rest) c
                = ⟨rc + c, rl, insertPath rch rest c⟩ :: rs
                from by simp [insertPath, RowData.location, RowData.costs,
                  RowData.children, hlt, heq, locLt_irrefl]]
            rw [hasNode_cons, hasNode_cons]
            simp only [RowData.location, RowData.children, Bool.or_eq_true,
              Bool.and_eq_true, decide_eq_true_eq, List.isEmpty_eq_true,
              ne_eq, reduceCtorEq, not_false_eq_true, true_and,
              List.cons_prefix_cons, ih rch c ms]
            by_cases hm : rl = m
            · subst hm
              simp only [true_and]
              by_cases hms : ms = []
              · subst hms
                simp [heq, List.nil_prefix]
              · constructor
                · rintro (hin | hin)
                  · tauto
                  · tauto
                · rintro ((hin | hin) | ⟨hml, hpre⟩)
                  · tauto
                  · tauto
                  · exact Or.inl (Or.inr (Or.inr ⟨hms, hpre⟩))
            · simp only [hm, false_and, false_or]
              constructor
              · exact fun h => Or.inl h
              · rintro (h | ⟨hml, -⟩)
                · exact h
                · exact absurd (heq.trans hml.symm) hm
          · rw [show insertPath (⟨rc, rl, rch⟩ :: rs) (loc :: rest) c
                = ⟨c, loc, insertPath [] rest c⟩ :: ⟨rc, rl, rch⟩ :: rs
                from by simp [insertPath, RowData.location, hlt, heq]]
            rw [show hasNode (RowData.mk c loc (insertPath [] rest c)
                  :: ⟨rc, rl, rch⟩ :: rs) (m :: ms)
                = ((decide (loc = m)
                    && (ms.isEmpty || hasNode (insertPath [] rest c) ms))
                  || hasNode (⟨rc, rl, rch⟩ :: rs) (m :: ms))
                from by rw [hasNode_cons]; rfl]
            simp only [Bool.or_eq_true, Bool.and_eq_true, decide_eq_true_eq,
              List.isEmpty_eq_true, ne_eq, reduceCtorEq, not_false_eq_true,
              true_and, List.cons_prefix_cons]
            by_cases hm : loc = m
            · subst hm
              simp only [true_and]
              constructor
              · rintro ((hin | hin) | hin)
                · exact Or.inr (by simp [hin])
                · exact Or.inr ((hasNode_freshChain rest c ms).mp hin).2
                · exact Or.inl hin
              · rintro (hin | hpre)
                · exact Or.inr hin
                · by_cases hms : ms = []
                  · exact Or.inl (Or.inl hms)
                  · exact Or.inl (Or.inr
                      ((hasNode_freshChain rest c ms).mpr ⟨hms, hpre⟩))
            · simp only [hm, false_and, false_or]
              constructor
              · exact fun h => Or.inl h
              · rintro (h | ⟨hml, -⟩)
                · exact h
                · exact absurd hml.symm hm

theorem leafAt_hasNode :
    ∀ (q : List LocationData) (rows : List RowData),
      leafAt rows q = true → hasNode rows q = true := by
  intro q
  induction q with
  | nil => intro rows h; rw [leafAt_nil_path] at h; cases h
  | cons m ms ih =>
    intro rows
    induction rows with
    | nil => intro h; rw [leafAt_nil] at h; cases h
    | cons r rs ihr =>
      intro h
      rw [leafAt_cons] at h
      rw [hasNode_cons]
      simp only [Bool.or_eq_true, Bool.and_eq_true, decide_eq_true_eq] at h ⊢
      rcases h with ⟨hloc, hleaf⟩ | h
      · left
        refine ⟨hloc, ?_⟩
        by_cases hms : ms = []
        · left
          simp [hms]
        · right
          have hmsB : ms.isEmpty = false := by
            cases ms with
            | nil => exact absurd rfl hms
            | cons a b => rfl
          rw [hmsB] at hleaf
          simp only [Bool.false_eq_true, if_false] at hleaf
          exact ih r.children hleaf
      · right
        exact ihr h

theorem hasNode_false_of_not_loc (m : LocationData) (ms : List LocationData) :
    ∀ rows : List RowData, (∀ r ∈ rows, r.location ≠ m) →
      hasNode rows (m :: ms) = false := by
  intro rows
  induction rows with
  | nil => intro _; exact hasNode_nil m ms
  | cons r rs ih =>
    intro h
    rw [hasNode_cons]
    simp only [Bool.or_eq_false_iff, Bool.and_eq_false_iff]
    refine ⟨Or.inl ?_, ih (fun s hs => h s (List.mem_cons_of_mem r hs))⟩
    simp only [decide_eq_false_iff_not]
    exact h r (List.mem_cons_self r rs)

theorem leafAt_false_of_not_loc (m : LocationData) (ms : List LocationData) :
    ∀ rows : List RowData, (∀ r ∈ rows, r.location ≠ m) →
      leafAt rows (m :: ms) = false := by
  intro rows
  induction rows with
  | nil => intro _; exact leafAt_nil m ms
  | cons r rs ih =>
    intro h
    rw [leafAt_cons]
    simp only [Bool.or_eq_false_iff, Bool.and_eq_false_iff]
    refine ⟨Or.inl ?_, ih (fun s hs => h s (List.mem_cons_of_mem r hs))⟩
    simp only [decide_eq_false_iff_not]
    exact h r (List.mem_cons_self r rs)

/-- In a duplicate-free forest, a leaf path has no strict extension. -/
theorem hasNode_ext_false_of_leafAt :
    ∀ (q : List LocationData) (rows : List RowData) (l : LocationData),
      forestDedup rows = true → leafAt rows q = true →
      hasNode rows (q ++ [l]) = false := by
  intro q
  induction q with
  | nil => intro rows l _ h; rw [leafAt_nil_path] at h; cases h
  | cons m ms ih =>
    intro rows
    induction rows with
    | nil => intro l _ h; rw [leafAt_nil] at h; cases h
    | cons r rs ihr =>
      intro l hd h
      rw [forestDedup_cons] at hd
      simp only [Bool.and_eq_true] at hd
      obtain ⟨⟨hall, hrowd⟩, hssd⟩ := hd
      have hnotin : ∀ s ∈ rs, s.location ≠ r.location := by
        intro s hs
        have := List.all_eq_true.mp hall s hs
        simpa using this
      rw [leafAt_cons] at h
      rw [List.cons_append, hasNode_cons]
      simp only [Bool.or_eq_true, Bool.and_eq_true, decide_eq_true_eq] at h
      simp only [Bool.or_eq_false_iff, Bool.and_eq_false_iff]
      by_cases hloc : r.location = m
      · have hssleaf : leafAt rs (m :: ms) = false := by
          refine leafAt_false_of_not_loc m ms rs (fun s hs => ?_)
          rw [← hloc]
          exact hnotin s hs
        rcases h with ⟨-, hleaf⟩ | h
        · constructor
          · right
            refine ⟨by simp, ?_⟩
            by_cases hms : ms = []
            · subst hms
              simp only [List.isEmpty_nil, if_true] at hleaf
              have hch : r.children = [] := by
                cases hc : r.children with
                | nil => rfl
                | cons x xs => rw [hc] at hleaf; simp at hleaf
              rw [hch]
              exact hasNode_nil l []
            · have hmsB : ms.isEmpty = false := by
                cases ms with
                | nil => exact absurd rfl hms
                | cons a b => rfl
              rw [hmsB] at hleaf
              simp only [Bool.false_eq_true, if_false] at hleaf
              obtain ⟨rc, rl, rch⟩ := r
              refine ih rch l ?_ hleaf
              rw [rowDedup_mk] at hrowd
              exact hrowd
          · refine hasNode_false_of_not_loc m (ms ++ [l]) rs (fun s hs => ?_)
            rw [← hloc]
            exact hnotin s hs
        · rw [hssleaf] at h
          cases h
      · rcases h with ⟨hl, -⟩ | h
        · exact absurd hl hloc
        · constructor
          · left
            simp only [decide_eq_false_iff_not]
            exact hloc
          · exact ihr l hssd h

/-- Inserting a nonempty path never yields an empty sibling list. -/
theorem insertPath_ne_nil (path : List LocationData) (hp : path ≠ []) :
    ∀ (rows : List RowData) (c : Costs), insertPath rows path c ≠ [] := by
  intro rows c
  match path, hp with
  | loc :: rest, _ =>
    cases rows with
    | nil =>
      rw [show insertPath [] (loc :: rest) c = [⟨c, loc, insertPath [] rest c⟩]
          from by simp [insertPath]]
      exact List.cons_ne_nil _ _
    | cons r rs =>
      by_cases hlt : locLt r.location loc
      · rw [show insertPath (r :: rs) (loc :: rest) c
            = r :: insertPath rs (loc :: rest) c from by simp [insertPath, hlt]]
        exact List.cons_ne_nil _ _
      · by_cases heq : r.location = loc
        · rw [show insertPath (r :: rs) (loc :: rest) c
              = ⟨r.costs + c, r.location, insertPath r.children rest c⟩ :: rs
              from by simp [insertPath, hlt, heq, locLt_irrefl]]
          exact List.cons_ne_nil _ _
        · rw [show insertPath (r :: rs) (loc :: rest) c
              = ⟨c, loc, insertPath [] rest c⟩ :: r :: rs
              from by simp [insertPath, hlt, heq]]
          exact List.cons_ne_nil _ _

/-- The leaves of a freshly built chain carry exactly the inserted
costs. -/
theorem forestLeafSum_freshChain :
    ∀ (path : List LocationData), path ≠ [] →
      ∀ c : Costs, forestLeafSum (insertPath [] path c) = c := by
  intro path
  induction path with
  | nil => intro h; exact absurd rfl h
  | cons loc rest ih =>
    intro _ c
    rw [show insertPath [] (loc :: rest) c = [⟨c, loc, insertPath [] rest c⟩]
        from by simp [insertPath]]
    rw [forestLeafSum_cons, forestLeafSum_nil, add_zero]
    cases rest with
    | nil =>
      rw [show insertPath [] ([] : List LocationData) c = [] from by simp [insertPath]]
      exact rowLeafSum_mk_nil c loc
    | cons l1 ls1 =>
      have hne : insertPath [] (l1 :: ls1) c ≠ [] :=
        insertPath_ne_nil (l1 :: ls1) (List.cons_ne_nil _ _) [] c
      cases hch : insertPath [] (l1 :: ls1) c with
      | nil => exact absurd hch hne
      | cons y ys =>
        rw [rowLeafSum_mk_cons, ← hch]
        exact ih (List.cons_ne_nil _ _) c

/-- Inserting a nonempty walked path raises the total leaf cost by the
inserted costs, provided no existing node path strictly extends the path
(a one-level extension suffices to witness any) and no strict nonempty
prefix of the path is currently a leaf.  These are the conditions under
which a new allocation neither hides inside an interior node nor converts
an existing leaf into an interior node. -/
theorem forestLeafSum_insertPath :
    ∀ (path : List LocationData), path ≠ [] →
      ∀ (rows : List RowData) (c : Costs),
        (∀ l, hasNode rows (path ++ [l]) = false) →
        (∀ q, q <+: path → q ≠ path → q ≠ [] → leafAt rows q = false) →
        forestLeafSum (insertPath rows path c) = forestLeafSum rows + c := by
  intro path
  induction path with
  | nil => intro h; exact absurd rfl h
  | cons loc ls ih =>
    intro _ rows c
    induction rows with
    | nil =>
      intro _ _
      rw [forestLeafSum_freshChain (loc :: ls) (List.cons_ne_nil _ _) c,
        forestLeafSum_nil, zero_add]
    | cons r rs ihr =>
      intro hnoext hnoleaf
      obtain ⟨rc, rl, rch⟩ := r
      by_cases hlt : locLt rl loc
      · rw [show insertPath (⟨rc, rl, rch⟩ :: rs) (loc :: ls) c
            = ⟨rc, rl, rch⟩ :: insertPath rs (loc :: ls) c
            from by simp [insertPath, RowData.location, hlt]]
        rw [forestLeafSum_cons, forestLeafSum_cons]
        have hnoext' : ∀ l, hasNode rs ((loc :: ls) ++ [l]) = false := by
          intro l
          have := hnoext l
          rw [List.cons_append, hasNode_cons] at this
          simp only [Bool.or_eq_false_iff] at this
          exact this.2
        have hnoleaf' : ∀ q, q <+: loc :: ls → q ≠ loc :: ls → q ≠ [] →
            leafAt rs q = false := by
          intro q h1 h2 h3
          have := hnoleaf q h1 h2 h3
          match q, h3 with
          | m :: ms, _ =>
            rw [leafAt_cons] at this
            simp only [Bool.or_eq_false_iff] at this
            exact this.2
        rw [ihr hnoext' hnoleaf']
        abel
      · by_cases heq : rl = loc
        · rw [show insertPath (⟨rc, rl, rch⟩ :: rs) (loc :: ls) c
              = ⟨rc + c, rl, insertPath rch ls c⟩ :: rs
              from by simp [insertPath, RowData.location, RowData.costs,
                RowData.children, hlt, heq, locLt_irrefl]]
          rw [forestLeafSum_cons, forestLeafSum_cons]
          cases hls : ls with
          | nil =>
            subst hls
            rw [show insertPath rch ([] : List LocationData) c = rch
                from by simp [insertPath]]
            cases hch : rch with
            | nil =>
              rw [rowLeafSum_mk_nil, rowLeafSum_mk_nil]
              abel
            | cons x xs =>
              exfalso
              subst hch
              obtain ⟨xc, xl, xch⟩ := x
              have := hnoext xl
              rw [List.cons_append, List.nil_append, hasNode_cons] at this
              simp only [Bool.or_eq_false_iff, Bool.and_eq_false_iff,
                decide_eq_false_iff_not, RowData.location, RowData.children] at this
              rcases this.1 with hbad | hbad
              · exact hbad heq
              · rw [hasNode_cons] at hbad
                simp [RowData.location] at hbad
          | cons l1 ls1 =>
            subst hls
            cases hch : rch with
            | nil =>
              exfalso
              subst hch
              have := hnoleaf [loc] (by simp [List.cons_prefix_cons])
                (by simp) (by simp)
              rw [leafAt_cons] at this
              simp only [Bool.or_eq_false_iff, Bool.and_eq_false_iff,
                decide_eq_false_iff_not, RowData.location, RowData.children,
                List.isEmpty_nil, if_true] at this
              rcases this.1 with hbad | hbad
              · exact hbad heq
              · simp at hbad
            | cons x xs =>
              subst hch
              have hfne : insertPath (x :: xs) (l1 :: ls1) c ≠ [] :=
                insertPath_ne_nil (l1 :: ls1) (List.cons_ne_nil _ _) (x :: xs) c
              have hnoext' : ∀ l, hasNode (x :: xs) ((l1 :: ls1) ++ [l]) = false := by
                intro l
                have := hnoext l
                rw [List.cons_append, hasNode_cons] at this
                simp only [Bool.or_eq_false_iff, Bool.and_eq_false_iff,
                  decide_eq_false_iff_not, RowData.location,
                  RowData.children] at this
                rcases this.1 with hbad | hbad
                · exact absurd heq hbad
                · simpa using hbad
              have hnoleaf' : ∀ q, q <+: l1 :: ls1 → q ≠ l1 :: ls1 → q ≠ [] →
                  leafAt (x :: xs) q = false := by
                intro q h1 h2 h3
                have := hnoleaf (loc :: q)
                  (by simp [List.cons_prefix_cons, h1])
                  (by simp [h2]) (by simp)
                rw [leafAt_cons] at this
                simp only [Bool.or_eq_false_iff, Bool.and_eq_false_iff,
                  decide_eq_false_iff_not, RowData.location,
                  RowData.children] at this
                rcases this.1 with hbad | hbad
                · exact absurd heq hbad
                · match q, h3 with
                  | m :: ms, _ =>
                    simp only [List.isEmpty_cons, Bool.false_eq_true,
                      if_false] at hbad
                    exact hbad
              have hsum := ih (List.cons_ne_nil _ _) (x :: xs) c hnoext' hnoleaf'
              cases hins : insertPath (x :: xs) (l1 :: ls1) c with
              | nil => exact absurd hins hfne
              | cons y ys =>
                rw [rowLeafSum_mk_cons, ← hins, rowLeafSum_mk_cons, hsum]
                abel
        · rw [show insertPath (⟨rc, rl, rch⟩ :: rs) (loc :: ls) c
              = ⟨c, loc, insertPath [] ls c⟩ :: ⟨rc, rl, rch⟩ :: rs
              from by simp [insertPath, RowData.location, hlt, heq]]
          rw [forestLeafSum_cons, forestLeafSum_cons]
          have hnew : rowLeafSum ⟨c, loc, insertPath [] ls c⟩ = c := by
            cases hls : ls with
            | nil =>
              rw [show insertPath [] ([] : List LocationData) c = []
                  from by simp [insertPath]]
              exact rowLeafSum_mk_nil c loc
            | cons l1 ls1 =>
              have hne : insertPath [] (l1 :: ls1) c ≠ [] :=
                insertPath_ne_nil (l1 :: ls1) (List.cons_ne_nil _ _) [] c
              cases hins : insertPath [] (l1 :: ls1) c with
              | nil => exact absurd hins hne
              | cons y ys =>
                rw [rowLeafSum_mk_cons, ← hins]
                exact forestLeafSum_freshChain (l1 :: ls1) (List.cons_ne_nil _ _) c
          rw [hnew]
          abel

theorem allocCostSum_append (xs ys : List Allocation) :
    allocCostSum (xs ++ ys) = allocCostSum xs + allocCostSum ys := by
  induction xs with
  | nil => simp [allocCostSum_nil]
  | cons a as ih => rw [List.cons_append, allocCostSum_cons, allocCostSum_cons, ih]; abel

theorem hasNode_empty (q : List LocationData) : hasNode [] q = false := by
  cases q with
  | nil => exact hasNode_nil_path []
  | cons m ms => exact hasNode_nil m ms

/-- Folding allocations whose walked paths are nonempty and pairwise
prefix-free accumulates the full cost sum in the leaves. -/
theorem forestLeafSum_foldl (d : TraceData) :
    ∀ (todo done : List Allocation) (rows : List RowData),
      forestSorted rows = true →
      (∀ q, hasNode rows q = true
          ↔ ∃ a ∈ done, q ≠ [] ∧ q <+: tracePath d a.traceIndex) →
      forestLeafSum rows = allocCostSum done →
      (∀ a ∈ done ++ todo, tracePath d a.traceIndex ≠ []) →
      (∀ a ∈ done ++ todo, ∀ b ∈ done ++ todo,
          tracePath d a.traceIndex <+: tracePath d b.traceIndex →
          tracePath d a.traceIndex = tracePath d b.traceIndex) →
      forestLeafSum (todo.foldl
          (fun rows a => insertPath rows (tracePath d a.traceIndex) a.costs) rows)
        = allocCostSum (done ++ todo) := by
  intro todo
  induction todo with
  | nil =>
    intro done rows _ _ hsum _ _
    rw [List.foldl_nil, List.append_nil]
    exact hsum
  | cons a todo ih =>
    intro done rows hsorted hinv hsum hne hanti
    have hamem : a ∈ done ++ a :: todo :=
      List.mem_append_right done (List.mem_cons_self a todo)
    have hp : tracePath d a.traceIndex ≠ [] := hne a hamem
    have hdedup : forestDedup rows = true :=
      forestSorted_dedup (sizeOf rows) rows le_rfl hsorted
    have H1 : ∀ l, hasNode rows (tracePath d a.traceIndex ++ [l]) = false := by
      intro l
      cases hhn : hasNode rows (tracePath d a.traceIndex ++ [l]) with
      | false => rfl
      | true =>
        exfalso
        obtain ⟨b, hbmem, -, hbpre⟩ := (hinv _).mp hhn
        have hpre : tracePath d a.traceIndex <+: tracePath d b.traceIndex :=
          (List.prefix_append _ _).trans hbpre
        have heq := hanti a hamem b (List.mem_append_left _ hbmem) hpre
        rw [← heq] at hbpre
        have := hbpre.length_le
        simp at this
    have H2 : ∀ q, q <+: tracePath d a.traceIndex →
        q ≠ tracePath d a.traceIndex → q ≠ [] → leafAt rows q = false := by
      intro q hqpre hqne hqnil
      cases hlf : leafAt rows q with
      | false => rfl
      | true =>
        exfalso
        have hhn : hasNode rows q = true := leafAt_hasNode q rows hlf
        obtain ⟨b, hbmem, -, hbpre⟩ := (hinv q).mp hhn
        by_cases hqb : q = tracePath d b.traceIndex
        · have heq := hanti b (List.mem_append_left _ hbmem) a hamem (hqb ▸ hqpre)
          exact hqne (hqb.trans heq)
        · obtain ⟨t, ht⟩ := hbpre
          have htne : t ≠ [] := by
            intro hc
            rw [hc, List.append_nil] at ht
            exact hqb ht
          match t, htne with
          | l :: t', _ =>
            have hql : hasNode rows (q ++ [l]) = true := by
              refine (hinv (q ++ [l])).mpr ⟨b, hbmem, by simp, ?_⟩
              refine ⟨t', ?_⟩
              rw [← ht]
              simp
            have := hasNode_ext_false_of_leafAt q rows l hdedup hlf
            rw [this] at hql
            cases hql
    have hstep : forestLeafSum (insertPath rows (tracePath d a.traceIndex) a.costs)
        = forestLeafSum rows + a.costs :=
      forestLeafSum_insertPath (tracePath d a.traceIndex) hp rows a.costs H1 H2
    rw [List.foldl_cons,
      show done ++ a :: todo = (done ++ [a]) ++ todo from by simp]
    refine ih (done ++ [a]) _ ?_ ?_ ?_ ?_ ?_
    · exact forestSorted_insertPath _ _ _ hsorted
    · intro q
      rw [hasNode_insertPath _ rows a.costs q]
      constructor
      · rintro (h | h)
        · obtain ⟨b, hbmem, hq⟩ := (hinv q).mp h
          exact ⟨b, List.mem_append_left _ hbmem, hq⟩
        · exact ⟨a, List.mem_append_right _ (List.mem_singleton.mpr rfl), h⟩
      · rintro ⟨b, hbmem, hq⟩
        rcases List.mem_append.mp hbmem with hb | hb
        · exact Or.inl ((hinv q).mpr ⟨b, hb, hq⟩)
        · rw [List.mem_singleton.mp hb] at hq
          exact Or.inr hq
    · rw [hstep, hsum, allocCostSum_append]
      rfl
    · intro b hb
      refine hne b ?_
      rw [show done ++ a :: todo = (done ++ [a]) ++ todo from by simp]
      exact hb
    · intro b hb b' hb'
      rw [show (done ++ [a]) ++ todo = done ++ a :: todo from by simp] at hb hb'
      exact hanti b hb b' hb'

/-- Under nonempty, pairwise prefix-free walked paths, the bottom-up
leaves hold the full input cost sum. -/
theorem forestLeafSum_mergeAllocations (d : TraceData)
    (hne : ∀ a ∈ d.allocations, tracePath d a.traceIndex ≠ [])
    (hanti : ∀ a ∈ d.allocations, ∀ b ∈ d.allocations,
        tracePath d a.traceIndex <+: tracePath d b.traceIndex →
        tracePath d a.traceIndex = tracePath d b.traceIndex) :
    forestLeafSum (mergeAllocations d) = allocCostSum d.allocations := by
  rw [mergeAllocations]
  have := forestLeafSum_foldl d d.allocations [] [] forestSorted_nil
    (by
      intro q
      rw [hasNode_empty]
      simp)
    (by rw [forestLeafSum_nil, allocCostSum_nil])
    (by simpa using hne)
    (by simpa using hanti)
  simpa using this

/-! The timestamp chart aggregator (`ParserData` of `parser.cpp`). -/

/-- `i18n("total")`, modelled as the identity on the literal since
localisation is out of scope. -/
def totalLabel : String := "total"

/-- One chart row: a timestamp and a sparse label-id → cost mapping
(`ChartRows` with its `QMap<int, quint64> cost`, modelled as an
association list whose insert replaces an existing key). -/
structure ChartRows where
  timeStamp : Nat
  cost : List (Nat × Nat)
deriving DecidableEq, Repr

/-- `QMap::insert`: replace the value at an existing key, else add the
entry. -/
def costInsert (k v : Nat) (m : List (Nat × Nat)) : List (Nat × Nat) :=
  if m.any (fun e => e.1 = k) then m.map (fun e => if e.1 = k then (k, v) else e)
  else m ++ [(k, v)]

def costLookup (m : List (Nat × Nat)) (k : Nat) : Option Nat :=
  (m.find? (fun e => e.1 = k)).map Prod.snd

/-- `ChartDataWithLabels`: the accumulated rows and the
`QHash<QString, int>` label-id table (association list).  The final
label-id → name reverse mapping built at the last timestamp is a
presentation artifact iterated in unspecified hash order and is not
modelled. -/
structure ChartDataWithLabels where
  rows : List ChartRows
  labelIds : List (String × Nat)
deriving DecidableEq, Repr

def lookupId (tbl : List (String × Nat)) (f : String) : Option Nat :=
  (tbl.find? (fun e => e.1 = f)).map Prod.snd

/-- `auto& id = data->labelIds[alloc.function]; if (!id) { id =
data->labelIds.size() - 1; }`: `QHash::operator[]` inserts a
default-constructed 0 for an absent key (growing the table first), and a
zero id — absent key, or a key still mapped to 0 — is then overwritten
with `size() - 1`. -/
def getOrAssign (tbl : List (String × Nat)) (f : String) : Nat × List (String × Nat) :=
  match lookupId tbl f with
  | some i =>
    if i ≠ 0 then (i, tbl)
    else (tbl.length - 1, tbl.map (fun e => if e.1 = f then (f, tbl.length - 1) else e))
  | none => (tbl.length, tbl ++ [(f, tbl.length)])

/-- `ChartMergeData`: per-function cost summary used at each timestamp. -/
structure ChartMergeData where
  function : String
  consumed : Nat
  allocations : Nat
  allocated : Nat
deriving DecidableEq, Repr

/-- The `lower_bound`-based find-or-insert over the function-name-sorted
merged summary in `handleTimeStamp`. -/
def chartMerge : List ChartMergeData → String → Allocation → List ChartMergeData
  | [], f, a => [⟨f, a.leaked, a.allocations, a.allocated⟩]
  | e :: es, f, a =>
    if strLtB e.function f then e :: chartMerge es f a
    else if e.function = f then
      ⟨e.function, e.consumed + a.leaked, e.allocations + a.allocations,
        e.allocated + a.allocated⟩ :: es
    else ⟨f, a.leaked, a.allocations, a.allocated⟩ :: e :: es

/-- The resolved leaf-frame function of an allocation:
`stringCache.func(findIp(findTrace(allocation.traceIndex).ipIndex))`. -/
def leafFunc (d : TraceData) (a : Allocation) : String :=
  funcOf d.strings (d.findIp (((d.findTrace a.traceIndex).map TraceNode.ipIndex).getD 0))

/-- The merged per-function summary across all allocation records. -/
def buildMergedData (d : TraceData) : List ChartMergeData :=
  d.allocations.foldl (fun md a => chartMerge md (leafFunc d a) a) []

/-- Descending insertion by one cost member, mirroring the
`left.*member > right.*member` comparator of the `sort` call (ties keep
the incumbent order; `std::sort` leaves tie order unspecified, and this
development fixes one refinement of it). -/
def insertDesc (member : ChartMergeData → Nat) (x : ChartMergeData) :
    List ChartMergeData → List ChartMergeData
  | [] => [x]
  | y :: ys => if member x > member y then x :: y :: ys else y :: insertDesc member x ys

def sortByDesc (member : ChartMergeData → Nat) (l : List ChartMergeData) :
    List ChartMergeData :=
  l.foldr (insertDesc member) []

/-- The entries surviving the `for (i < min(10, size)) { if (!value)
break; … }` loop: at most the first ten of the descending sort, stopping
at the first zero. -/
def topEntries (member : ChartMergeData → Nat) (mergedData : List ChartMergeData) :
    List ChartMergeData :=
  ((sortByDesc member mergedData).take 10).takeWhile (fun e => decide (member e ≠ 0))

/-- The body of the entry loop of the `addChartData` lambda: assign or
fetch the label id and record the entry's cost at that id. -/
def chartStep (member : ChartMergeData → Nat)
    (acc : List (String × Nat) × List (Nat × Nat)) (e : ChartMergeData) :
    List (String × Nat) × List (Nat × Nat) :=
  let idtbl := getOrAssign acc.1 e.function
  (idtbl.2, costInsert idtbl.1 (member e) acc.2)

/-- The `addChartData` lambda of `handleTimeStamp`: build one row from the
total cost plus the surviving entries (assigning label ids as needed) and
append it. -/
def addChartData (member : ChartMergeData → Nat) (mergedData : List ChartMergeData)
    (newStamp totalCost : Nat) (data : ChartDataWithLabels) : ChartDataWithLabels :=
  let folded := (topEntries member mergedData).foldl (chartStep member)
    (data.labelIds, costInsert 0 totalCost [])
  { rows := data.rows ++ [⟨newStamp, folded.2⟩], labelIds := folded.1 }

/-- The chart-side state of `ParserData`. -/
structure ParserData where
  consumedChartData : ChartDataWithLabels
  allocatedChartData : ChartDataWithLabels
  allocationsChartData : ChartDataWithLabels
  maxConsumedSinceLastTimeStamp : Nat
deriving DecidableEq, Repr

/-- The `ParserData` constructor: one null origin row per chart and the
reserved "total" label at id 0. -/
def initParserData : ParserData :=
  { consumedChartData := ⟨[⟨0, []⟩], [(totalLabel, 0)]⟩,
    allocatedChartData := ⟨[⟨0, []⟩], [(totalLabel, 0)]⟩,
    allocationsChartData := ⟨[⟨0, []⟩], [(totalLabel, 0)]⟩,
    maxConsumedSinceLastTimeStamp := 0 }

/-- The data carried by one timestamp-boundary event: the new stamp, the
current snapshot of the external trace store, and the current running
`leaked` / `totalAllocated` / `totalAllocations` scalars of
`AccumulatedTraceData`. -/
structure TimeStampEvent where
  newStamp : Nat
  d : TraceData
  leaked : Nat
  totalAllocated : Nat
  totalAllocations : Nat

/-- `ParserData::handleTimeStamp`. -/
def handleTimeStamp (s : ParserData) (ev : TimeStampEvent) : ParserData :=
  let maxC := max s.maxConsumedSinceLastTimeStamp ev.leaked
  let mergedData := buildMergedData ev.d
  { consumedChartData := addChartData (fun e => e.consumed) mergedData
      ev.newStamp maxC s.consumedChartData,
    allocatedChartData := addChartData (fun e => e.allocated) mergedData
      ev.newStamp ev.totalAllocated s.allocatedChartData,
    allocationsChartData := addChartData (fun e => e.allocations) mergedData
      ev.newStamp ev.totalAllocations s.allocationsChartData,
    maxConsumedSinceLastTimeStamp := 0 }

/-- `ParserData::handleAllocation`. -/
def handleAllocation (s : ParserData) (leaked : Nat) : ParserData :=
  { s with
    maxConsumedSinceLastTimeStamp := max s.maxConsumedSinceLastTimeStamp leaked }

inductive ParserEvent where
  | timeStamp (ev : TimeStampEvent)
  | allocation (leaked : Nat)

def processEvent (s : ParserData) (e : ParserEvent) : ParserData :=
  match e with
  | .timeStamp ev => handleTimeStamp s ev
  | .allocation leaked => handleAllocation s leaked

def processEvents (s : ParserData) (evs : List ParserEvent) : ParserData :=
  evs.foldl processEvent s

def countTimeStamps (evs : List ParserEvent) : Nat :=
  (evs.filter (fun e => match e with
    | .timeStamp _ => true
    | .allocation _ => false)).length

/-- Spec-side watermark: the maximum of the live-bytes values delivered
by allocation events since the last boundary (starting from the given
value, reset to zero at each boundary). -/
def specWatermark : Nat → List ParserEvent → Nat
  | m, [] => m
  | _, .timeStamp _ :: es => specWatermark 0 es
  | m, .allocation l :: es => specWatermark (max m l) es

/-! Well-formedness of the label-id tables. -/

/-- The invariant of a label-id table: the reserved "total" entry sits at
the front with id 0, the ids in insertion order are exactly
`0, …, size-1`, the keys are distinct, and id 0 is held only by the
"total" label. -/
def WFTable (tbl : List (String × Nat)) : Prop :=
  tbl.head? = some (totalLabel, 0)
    ∧ tbl.map Prod.snd = List.range tbl.length
    ∧ (tbl.map Prod.fst).Nodup
    ∧ ∀ e ∈ tbl, e.2 = 0 → e.1 = totalLabel

theorem WFTable_init : WFTable [(totalLabel, 0)] := by
  refine ⟨rfl, by simp [List.range_succ], by simp, ?_⟩
  intro e he _
  rw [List.mem_singleton.mp he]

theorem WFTable_ne_nil {tbl : List (String × Nat)} (h : WFTable tbl) : tbl ≠ [] := by
  intro hc
  rw [hc] at h
  cases h.1

theorem lookupId_entry {tbl : List (String × Nat)} {f : String} {i : Nat}
    (h : lookupId tbl f = some i) : (f, i) ∈ tbl := by
  rw [lookupId] at h
  cases hf : tbl.find? (fun e => e.1 = f) with
  | none => rw [hf] at h; cases h
  | some e =>
    rw [hf] at h
    have hmem := List.mem_of_find?_eq_some hf
    have hpred := List.find?_some hf
    simp only [decide_eq_true_eq] at hpred
    simp only [Option.map_some', Option.some.injEq] at h
    have : e = (f, i) := by
      cases e
      simp_all
    rw [← this]
    exact hmem

theorem entry_lt_length {tbl : List (String × Nat)} (h : WFTable tbl)
    {e : String × Nat} (he : e ∈ tbl) : e.2 < tbl.length := by
  have : e.2 ∈ tbl.map Prod.snd := List.mem_map_of_mem Prod.snd he
  rw [h.2.1] at this
  exact List.mem_range.mp this

theorem snd_injective {tbl : List (String × Nat)} (h : WFTable tbl)
    {e1 e2 : String × Nat} (h1 : e1 ∈ tbl) (h2 : e2 ∈ tbl) (hs : e1.2 = e2.2) :
    e1 = e2 := by
  have hnodup : (tbl.map Prod.snd).Nodup := by
    rw [h.2.1]
    exact List.nodup_range _
  exact List.inj_on_of_nodup_map hnodup h1 h2 hs

theorem fst_injective {tbl : List (String × Nat)} (h : WFTable tbl)
    {e1 e2 : String × Nat} (h1 : e1 ∈ tbl) (h2 : e2 ∈ tbl) (hs : e1.1 = e2.1) :
    e1 = e2 :=
  List.inj_on_of_nodup_map h.2.2.1 h1 h2 hs

theorem lookupId_ne_zero {tbl : List (String × Nat)} (h : WFTable tbl)
    {f : String} {i : Nat} (hf : lookupId tbl f = some i)
    (hft : f ≠ totalLabel) : i ≠ 0 := by
  intro hc
  subst hc
  exact hft (h.2.2.2 (f, 0) (lookupId_entry hf) rfl)

theorem lookupId_injective {tbl : List (String × Nat)} (h : WFTable tbl)
    {f g : String} {i : Nat} (hf : lookupId tbl f = some i)
    (hg : lookupId tbl g = some i) : f = g := by
  have := snd_injective h (lookupId_entry hf) (lookupId_entry hg) rfl
  simp only [Prod.mk.injEq] at this
  exact this.1

theorem lookupId_total {tbl : List (String × Nat)} (h : WFTable tbl) :
    lookupId tbl totalLabel = some 0 := by
  cases htbl : tbl with
  | nil => exact absurd htbl (WFTable_ne_nil h)
  | cons e es =>
    have := h.1
    rw [htbl] at this
    simp only [List.head?_cons, Option.some.injEq] at this
    rw [lookupId, List.find?_cons, this]
    simp

theorem getOrAssign_found {tbl : List (String × Nat)} (h : WFTable tbl)
    {f : String} {i : Nat} (hf : lookupId tbl f = some i) (hft : f ≠ totalLabel) :
    getOrAssign tbl f = (i, tbl) := by
  rw [getOrAssign, hf]
  simp [lookupId_ne_zero h hf hft]

theorem getOrAssign_fresh {tbl : List (String × Nat)} {f : String}
    (hf : lookupId tbl f = none) :
    getOrAssign tbl f = (tbl.length, tbl ++ [(f, tbl.length)]) := by
  rw [getOrAssign, hf]

theorem lookupId_none_not_mem {tbl : List (String × Nat)} {f : String}
    (hf : lookupId tbl f = none) : ∀ e ∈ tbl, e.1 ≠ f := by
  intro e he
  rw [lookupId] at hf
  cases hfind : tbl.find? (fun e => e.1 = f) with
  | some e' => rw [hfind] at hf; cases hf
  | none =>
    have := List.find?_eq_none.mp hfind e he
    simpa using this

theorem lookupId_append_left {tbl : List (String × Nat)} {f : String} {i : Nat}
    (hf : lookupId tbl f = some i) (x : String × Nat) :
    lookupId (tbl ++ [x]) f = some i := by
  rw [lookupId] at hf ⊢
  rw [List.find?_append]
  cases hfind : tbl.find? (fun e => e.1 = f) with
  | none => rw [hfind] at hf; cases hf
  | some e => rw [hfind] at hf; simp [hf]

theorem lookupId_append_fresh {tbl : List (String × Nat)} {f : String}
    (hf : lookupId tbl f = none) (j : Nat) :
    lookupId (tbl ++ [(f, j)]) f = some j := by
  rw [lookupId] at hf ⊢
  rw [List.find?_append]
  cases hfind : tbl.find? (fun e => e.1 = f) with
  | some e => rw [hfind] at hf; cases hf
  | none => simp

theorem WFTable_append_fresh {tbl : List (String × Nat)} (h : WFTable tbl)
    {f : String} (hf : lookupId tbl f = none) :
    WFTable (tbl ++ [(f, tbl.length)]) := by
  obtain ⟨h1, h2, h3, h4⟩ := h
  refine ⟨?_, ?_, ?_, ?_⟩
  · cases tbl with
    | nil => cases h1
    | cons e es => simpa using h1
  · rw [List.map_append, h2]
    simp [List.range_succ]
  · rw [List.map_append]
    rw [List.nodup_append]
    refine ⟨h3, by simp, ?_⟩
    intro g hg
    simp only [List.map_cons, List.map_nil, List.mem_singleton]
    intro hc
    subst hc
    simp only [List.mem_map] at hg
    obtain ⟨e, he, hef⟩ := hg
    exact lookupId_none_not_mem hf e he hef
  · intro e he hz
    rcases List.mem_append.mp he with he | he
    · exact h4 e he hz
    · rw [List.mem_singleton.mp he] at hz ⊢
      exfalso
      have : tbl.length ≠ 0 := by
        intro hc
        rw [List.length_eq_zero.mp hc] at h1
        cases h1
      exact this hz

theorem WFTable_getOrAssign {tbl : List (String × Nat)} (h : WFTable tbl)
    {f : String} (hft : f ≠ totalLabel) : WFTable (getOrAssign tbl f).2 := by
  cases hf : lookupId tbl f with
  | some i => rw [getOrAssign_found h hf hft]; exact h
  | none => rw [getOrAssign_fresh hf]; exact WFTable_append_fresh h hf

theorem costInsert_append_of_not_mem {m : List (Nat × Nat)} {k : Nat}
    (h : ∀ p ∈ m, p.1 ≠ k) (v : Nat) : costInsert k v m = m ++ [(k, v)] := by
  rw [costInsert, if_neg]
  simp only [List.any_eq_true, not_exists, not_and]
  intro p hp
  simpa using h p hp

/-- The entry loop appends, for each surviving entry, exactly one cost
pair keyed by the entry's (final) label id, while keeping the table
well-formed; earlier lookups are never changed. -/
theorem chartFold (member : ChartMergeData → Nat) :
    ∀ (sel : List ChartMergeData) (tbl : List (String × Nat)) (cost : List (Nat × Nat)),
      WFTable tbl →
      (∀ e ∈ sel, e.function ≠ totalLabel) →
      (sel.map (fun e => e.function)).Nodup →
      (∀ p ∈ cost, p.1 = 0
          ∨ ∃ g, g ∉ sel.map (fun e => e.function) ∧ g ≠ totalLabel
              ∧ lookupId tbl g = some p.1) →
      WFTable (sel.foldl (chartStep member) (tbl, cost)).1
      ∧ (∀ g i, lookupId tbl g = some i →
          lookupId (sel.foldl (chartStep member) (tbl, cost)).1 g = some i)
      ∧ (sel.foldl (chartStep member) (tbl, cost)).2
          = cost ++ sel.map (fun e =>
              ((lookupId (sel.foldl (chartStep member) (tbl, cost)).1 e.function).getD 0,
                member e)) := by
  intro sel
  induction sel with
  | nil =>
    intro tbl cost hWF _ _ _
    refine ⟨hWF, fun g i h => h, by simp⟩
  | cons e sel ih =>
    intro tbl cost hWF hnt hnodup hcost
    have hef : e.function ≠ totalLabel := hnt e (List.mem_cons_self e sel)
    simp only [List.map_cons, List.nodup_cons] at hnodup
    obtain ⟨hefnotin, hnodup'⟩ := hnodup
    cases hlook : lookupId tbl e.function with
    | some i =>
      have hstep : chartStep member (tbl, cost) e = (tbl, cost ++ [(i, member e)]) := by
        rw [chartStep]
        simp only [getOrAssign_found hWF hlook hef]
        rw [costInsert_append_of_not_mem]
        intro p hp hpk
        rcases hcost p hp with h0 | ⟨g, hgnot, hgt, hglook⟩
        · exact lookupId_ne_zero hWF hlook hef (hpk ▸ h0.symm ▸ rfl)
        · rw [hpk] at hglook
          have := lookupId_injective hWF hglook hlook
          rw [this] at hgnot
          exact hgnot (List.mem_cons_self _ _)
      rw [List.foldl_cons, hstep]
      have hcost' : ∀ p ∈ cost ++ [(i, member e)], p.1 = 0
          ∨ ∃ g, g ∉ sel.map (fun e => e.function) ∧ g ≠ totalLabel
              ∧ lookupId tbl g = some p.1 := by
        intro p hp
        rcases List.mem_append.mp hp with hp | hp
        · rcases hcost p hp with h0 | ⟨g, hgnot, hgt, hglook⟩
          · exact Or.inl h0
          · exact Or.inr ⟨g, fun hc => hgnot (List.mem_cons_of_mem _ hc), hgt, hglook⟩
        · rw [List.mem_singleton.mp hp]
          exact Or.inr ⟨e.function, hefnotin, hef, hlook⟩
      obtain ⟨ihWF, ihstable, ihcost⟩ := ih tbl (cost ++ [(i, member e)])
        hWF (fun x hx => hnt x (List.mem_cons_of_mem e hx)) hnodup' hcost'
      refine ⟨ihWF, fun g j h => ihstable g j h, ?_⟩
      rw [ihcost, List.append_assoc, List.map_cons]
      have : (lookupId (sel.foldl (chartStep member) (tbl, cost ++ [(i, member e)])).1
          e.function).getD 0 = i := by
        rw [ihstable e.function i hlook]
        rfl
      rw [this]
      rfl
    | none =>
      have hlen0 : tbl.length ≠ 0 := by
        intro hc
        exact WFTable_ne_nil hWF (List.length_eq_zero.mp hc)
      have hstep : chartStep member (tbl, cost)
          e = (tbl ++ [(e.function, tbl.length)], cost ++ [(tbl.length, member e)]) := by
        rw [chartStep]
        simp only [getOrAssign_fresh hlook]
        rw [costInsert_append_of_not_mem]
        intro p hp hpk
        rcases hcost p hp with h0 | ⟨g, hgnot, hgt, hglook⟩
        · rw [h0] at hpk
          exact hlen0 hpk.symm
        · rw [hpk] at hglook
          have := entry_lt_length hWF (lookupId_entry hglook)
          simp at this
      rw [List.foldl_cons, hstep]
      have hWF1 : WFTable (tbl ++ [(e.function, tbl.length)]) :=
        WFTable_append_fresh hWF hlook
      have hcost' : ∀ p ∈ cost ++ [(tbl.length, member e)], p.1 = 0
          ∨ ∃ g, g ∉ sel.map (fun e => e.function) ∧ g ≠ totalLabel
              ∧ lookupId (tbl ++ [(e.function, tbl.length)]) g = some p.1 := by
        intro p hp
        rcases List.mem_append.mp hp with hp | hp
        · rcases hcost p hp with h0 | ⟨g, hgnot, hgt, hglook⟩
          · exact Or.inl h0
          · exact Or.inr ⟨g, fun hc => hgnot (List.mem_cons_of_mem _ hc), hgt,
              lookupId_append_left hglook _⟩
        · rw [List.mem_singleton.mp hp]
          exact Or.inr ⟨e.function, hefnotin, hef, lookupId_append_fresh hlook _⟩
      obtain ⟨ihWF, ihstable, ihcost⟩ := ih (tbl ++ [(e.function, tbl.length)])
        (cost ++ [(tbl.length, member e)]) hWF1
        (fun x hx => hnt x (List.mem_cons_of_mem e hx)) hnodup' hcost'
      refine ⟨ihWF, ?_, ?_⟩
      · intro g j h
        exact ihstable g j (lookupId_append_left h _)
      · rw [ihcost, List.append_assoc, List.map_cons]
        rw [show (lookupId (sel.foldl (chartStep member)
              (tbl ++ [(e.function, tbl.length)], cost ++ [(tbl.length, member e)])).1
              e.function).getD 0 = tbl.length from by
            rw [ihstable e.function tbl.length (lookupId_append_fresh hlook _)]
            rfl]
        rfl

/-! Properties of the merged per-function summary and the selection. -/

/-- Entries of the merged summary originate in existing functions or the
inserted one. -/
theorem chartMerge_mem :
    ∀ (md : List ChartMergeData) (f : String) (a : Allocation),
      ∀ x ∈ chartMerge md f a,
        x.function = f ∨ ∃ e ∈ md, x.function = e.function := by
  intro md
  induction md with
  | nil =>
    intro f a x hx
    rw [List.mem_singleton.mp hx]
    exact Or.inl rfl
  | cons e es ih =>
    intro f a x hx
    rw [chartMerge] at hx
    by_cases hlt : strLtB e.function f
    · rw [if_pos hlt, List.mem_cons] at hx
      rcases hx with rfl | hx
      · exact Or.inr ⟨x, List.mem_cons_self x es, rfl⟩
      · rcases ih f a x hx with h | ⟨e', he', hf⟩
        · exact Or.inl h
        · exact Or.inr ⟨e', List.mem_cons_of_mem e he', hf⟩
    · rw [if_neg hlt] at hx
      by_cases heq : e.function = f
      · rw [if_pos heq, List.mem_cons] at hx
        rcases hx with rfl | hx
        · exact Or.inr ⟨e, List.mem_cons_self e es, rfl⟩
        · exact Or.inr ⟨x, List.mem_cons_of_mem e hx, rfl⟩
      · rw [if_neg heq, List.mem_cons] at hx
        rcases hx with rfl | hx
        · exact Or.inl rfl
        · exact Or.inr ⟨x, hx, rfl⟩

/-- The merged summary keeps its function names strictly sorted. -/
theorem chartMerge_sorted :
    ∀ (md : List ChartMergeData) (f : String) (a : Allocation),
      md.Pairwise (fun x y => strLtB x.function y.function = true) →
      (chartMerge md f a).Pairwise (fun x y => strLtB x.function y.function = true) := by
  intro md
  induction md with
  | nil => intro f a _; simp [chartMerge]
  | cons e es ih =>
    intro f a hp
    rw [List.pairwise_cons] at hp
    obtain ⟨hhead, htail⟩ := hp
    rw [chartMerge]
    by_cases hlt : strLtB e.function f
    · rw [if_pos hlt, List.pairwise_cons]
      refine ⟨?_, ih f a htail⟩
      intro x hx
      rcases chartMerge_mem es f a x hx with h | ⟨e', he', hf⟩
      · rw [h]; exact hlt
      · rw [hf]; exact hhead e' he'
    · rw [if_neg hlt]
      by_cases heq : e.function = f
      · rw [if_pos heq, List.pairwise_cons]
        exact ⟨fun x hx => hhead x hx, htail⟩
      · rw [if_neg heq, List.pairwise_cons]
        have hflt : strLtB f e.function = true := by
          cases h1 : strLtB f e.function with
          | true => rfl
          | false =>
            exfalso
            exact heq (strLtB_eq (Bool.eq_false_iff.mpr hlt) h1)
        refine ⟨?_, List.pairwise_cons.mpr ⟨fun x hx => hhead x hx, htail⟩⟩
        intro x hx
        rw [List.mem_cons] at hx
        rcases hx with rfl | hx
        · exact hflt
        · exact strLtB_trans hflt (hhead x hx)

theorem buildMergedData_sorted (d : TraceData) :
    (buildMergedData d).Pairwise (fun x y => strLtB x.function y.function = true) := by
  rw [buildMergedData]
  have : ∀ (as : List Allocation) (md : List ChartMergeData),
      md.Pairwise (fun x y => strLtB x.function y.function = true) →
      (as.foldl (fun md a => chartMerge md (leafFunc d a) a) md).Pairwise
        (fun x y => strLtB x.function y.function = true) := by
    intro as
    induction as with
    | nil => intro md h; simpa using h
    | cons a as ih => intro md h; exact ih _ (chartMerge_sorted md _ a h)
  exact this d.allocations [] (by simp)

/-- Every merged-summary function name is a resolved leaf-frame function
of some allocation. -/
theorem buildMergedData_mem (d : TraceData) :
    ∀ x ∈ buildMergedData d, ∃ a ∈ d.allocations, x.function = leafFunc d a := by
  rw [buildMergedData]
  have : ∀ (as : List Allocation) (md : List ChartMergeData),
      ∀ x ∈ as.foldl (fun md a => chartMerge md (leafFunc d a) a) md,
        (∃ e ∈ md, x.function = e.function) ∨ ∃ a ∈ as, x.function = leafFunc d a := by
    intro as
    induction as with
    | nil => intro md x hx; exact Or.inl ⟨x, hx, rfl⟩
    | cons a as ih =>
      intro md x hx
      rw [List.foldl_cons] at hx
      rcases ih _ x hx with ⟨e, he, hf⟩ | ⟨b, hb, hf⟩
      · rcases chartMerge_mem md (leafFunc d a) a e he with h | ⟨e', he', hf'⟩
        · exact Or.inr ⟨a, List.mem_cons_self a as, hf.trans h⟩
        · exact Or.inl ⟨e', he', hf.trans hf'⟩
      · exact Or.inr ⟨b, List.mem_cons_of_mem a hb, hf⟩
  intro x hx
  rcases this d.allocations [] x hx with ⟨e, he, -⟩ | h
  · cases he
  · exact h

theorem insertDesc_perm (member : ChartMergeData → Nat) (x : ChartMergeData) :
    ∀ l : List ChartMergeData, (insertDesc member x l).Perm (x :: l) := by
  intro l
  induction l with
  | nil => exact List.Perm.refl _
  | cons y ys ih =>
    rw [insertDesc]
    by_cases h : member x > member y
    · rw [if_pos h]
    · rw [if_neg h]
      exact (ih.cons y).trans (List.Perm.swap x y ys)

theorem sortByDesc_perm (member : ChartMergeData → Nat) :
    ∀ l : List ChartMergeData, (sortByDesc member l).Perm l := by
  intro l
  induction l with
  | nil => exact List.Perm.refl _
  | cons y ys ih =>
    rw [sortByDesc, List.foldr_cons]
    exact (insertDesc_perm member y _).trans (ih.cons y)

theorem topEntries_sublist (member : ChartMergeData → Nat)
    (md : List ChartMergeData) :
    (topEntries member md).Sublist (sortByDesc member md) := by
  rw [topEntries]
  exact (List.takeWhile_sublist _).trans (List.take_sublist _ _)

theorem topEntries_mem {member : ChartMergeData → Nat} {md : List ChartMergeData}
    {e : ChartMergeData} (h : e ∈ topEntries member md) : e ∈ md :=
  (sortByDesc_perm member md).mem_iff.mp ((topEntries_sublist member md).mem h)

/-- The selected entries carry pairwise distinct function names. -/
theorem topEntries_nodup (member : ChartMergeData → Nat) (d : TraceData) :
    ((topEntries member (buildMergedData d)).map (fun e => e.function)).Nodup := by
  have hmd : ((buildMergedData d).map (fun e => e.function)).Nodup := by
    rw [List.Nodup, List.pairwise_map]
    refine (buildMergedData_sorted d).imp ?_
    intro x y hlt hc
    rw [hc] at hlt
    rw [strLtB_irrefl] at hlt
    cases hlt
  have hsorted : ((sortByDesc member (buildMergedData d)).map
      (fun e => e.function)).Nodup :=
    ((sortByDesc_perm member (buildMergedData d)).map (fun e => e.function)).nodup_iff.mpr hmd
  exact ((topEntries_sublist member (buildMergedData d)).map
    (fun e => e.function)).nodup hsorted

/-- Absence of the reserved label among resolved leaf functions. -/
def noTotal (d : TraceData) : Prop :=
  ∀ a ∈ d.allocations, leafFunc d a ≠ totalLabel

theorem topEntries_noTotal {member : ChartMergeData → Nat} {d : TraceData}
    (h : noTotal d) : ∀ e ∈ topEntries member (buildMergedData d),
      e.function ≠ totalLabel := by
  intro e he
  obtain ⟨a, ha, hf⟩ := buildMergedData_mem d e (topEntries_mem he)
  rw [hf]
  exact h a ha

/-- Full characterization of one `addChartData` call: exactly one row is
appended, holding the total at id 0 followed by the selected entries at
their (final) label ids; the label table stays well-formed. -/
theorem addChartData_spec (member : ChartMergeData → Nat) (md : List ChartMergeData)
    (stamp tot : Nat) (data : ChartDataWithLabels)
    (hWF : WFTable data.labelIds)
    (hnt : ∀ e ∈ topEntries member md, e.function ≠ totalLabel)
    (hnd : ((topEntries member md).map (fun e => e.function)).Nodup) :
    WFTable (addChartData member md stamp tot data).labelIds
    ∧ (addChartData member md stamp tot data).rows
        = data.rows ++ [⟨stamp, (0, tot) :: (topEntries member md).map (fun e =>
            ((lookupId (addChartData member md stamp tot data).labelIds
              e.function).getD 0, member e))⟩] := by
  obtain ⟨hWF', hstable, hcost⟩ := chartFold member (topEntries member md)
    data.labelIds (costInsert 0 tot []) hWF hnt hnd
    (by
      intro p hp
      rw [show costInsert 0 tot ([] : List (Nat × Nat)) = [(0, tot)] from rfl] at hp
      rw [List.mem_singleton.mp hp]
      exact Or.inl rfl)
  refine ⟨hWF', ?_⟩
  show data.rows ++ [⟨stamp, ((topEntries member md).foldl (chartStep member)
      (data.labelIds, costInsert 0 tot [])).2⟩] = _
  rw [hcost]
  rfl

/-- Well-formedness of the three label tables of the parser state. -/
def ChartsWF (s : ParserData) : Prop :=
  WFTable s.consumedChartData.labelIds
    ∧ WFTable s.allocatedChartData.labelIds
    ∧ WFTable s.allocationsChartData.labelIds

theorem ChartsWF_init : ChartsWF initParserData :=
  ⟨WFTable_init, WFTable_init, WFTable_init⟩

def eventOk : ParserEvent → Prop
  | .timeStamp ev => noTotal ev.d
  | .allocation _ => True

theorem ChartsWF_handleTimeStamp {s : ParserData} (h : ChartsWF s)
    {ev : TimeStampEvent} (hok : noTotal ev.d) :
    ChartsWF (handleTimeStamp s ev) := by
  obtain ⟨h1, h2, h3⟩ := h
  refine ⟨?_, ?_, ?_⟩
  · exact (addChartData_spec _ _ _ _ _ h1 (topEntries_noTotal hok)
      (topEntries_nodup _ _)).1
  · exact (addChartData_spec _ _ _ _ _ h2 (topEntries_noTotal hok)
      (topEntries_nodup _ _)).1
  · exact (addChartData_spec _ _ _ _ _ h3 (topEntries_noTotal hok)
      (topEntries_nodup _ _)).1

theorem ChartsWF_processEvents :
    ∀ (evs : List ParserEvent) (s : ParserData), ChartsWF s →
      (∀ e ∈ evs, eventOk e) → ChartsWF (processEvents s evs) := by
  intro evs
  induction evs with
  | nil => intro s h _; exact h
  | cons e es ih =>
    intro s h hok
    rw [processEvents, List.foldl_cons]
    refine ih _ ?_ (fun x hx => hok x (List.mem_cons_of_mem e hx))
    cases e with
    | timeStamp ev =>
      exact ChartsWF_handleTimeStamp h (hok _ (List.mem_cons_self _ _))
    | allocation l => exact h

/-! Row counts and row shape. -/

theorem handleTimeStamp_rows_length (s : ParserData) (ev : TimeStampEvent) :
    (handleTimeStamp s ev).consumedChartData.rows.length
        = s.consumedChartData.rows.length + 1
    ∧ (handleTimeStamp s ev).allocatedChartData.rows.length
        = s.allocatedChartData.rows.length + 1
    ∧ (handleTimeStamp s ev).allocationsChartData.rows.length
        = s.allocationsChartData.rows.length + 1 := by
  refine ⟨?_, ?_, ?_⟩ <;> simp [handleTimeStamp, addChartData]

theorem processEvents_rows_length :
    ∀ (evs : List ParserEvent) (s : ParserData),
      (processEvents s evs).consumedChartData.rows.length
          = s.consumedChartData.rows.length + countTimeStamps evs
      ∧ (processEvents s evs).allocatedChartData.rows.length
          = s.allocatedChartData.rows.length + countTimeStamps evs
      ∧ (processEvents s evs).allocationsChartData.rows.length
          = s.allocationsChartData.rows.length + countTimeStamps evs := by
  intro evs
  induction evs with
  | nil => intro s; simp [processEvents, countTimeStamps]
  | cons e es ih =>
    intro s
    rw [processEvents, List.foldl_cons, ← processEvents]
    obtain ⟨ih1, ih2, ih3⟩ := ih (processEvent s e)
    cases e with
    | timeStamp ev =>
      obtain ⟨g1, g2, g3⟩ := handleTimeStamp_rows_length s ev
      rw [show processEvent s (.timeStamp ev) = handleTimeStamp s ev from rfl]
        at ih1 ih2 ih3
      have hcount : countTimeStamps (ParserEvent.timeStamp ev :: es)
          = countTimeStamps es + 1 := by
        simp [countTimeStamps, List.filter_cons, Nat.add_comm]
      rw [show processEvent s (.timeStamp ev) = handleTimeStamp s ev from rfl]
      refine ⟨?_, ?_, ?_⟩
      · rw [ih1, g1, hcount]; omega
      · rw [ih2, g2, hcount]; omega
      · rw [ih3, g3, hcount]; omega
    | allocation l =>
      rw [show processEvent s (.allocation l) = handleAllocation s l from rfl]
        at ih1 ih2 ih3
      rw [show processEvent s (.allocation l) = handleAllocation s l from rfl]
      have hcount : countTimeStamps (ParserEvent.allocation l :: es)
          = countTimeStamps es := by
        simp [countTimeStamps, List.filter_cons]
      refine ⟨?_, ?_, ?_⟩
      · rw [ih1, hcount]; rfl
      · rw [ih2, hcount]; rfl
      · rw [ih3, hcount]; rfl

theorem costInsert_length_le (k v : Nat) (m : List (Nat × Nat)) :
    (costInsert k v m).length ≤ m.length + 1 := by
  rw [costInsert]
  by_cases h : m.any (fun e => e.1 = k)
  · rw [if_pos h, List.length_map]; omega
  · rw [if_neg h, List.length_append]; simp

theorem chartFold_cost_length (member : ChartMergeData → Nat) :
    ∀ (sel : List ChartMergeData) (tbl : List (String × Nat))
      (cost : List (Nat × Nat)),
      ((sel.foldl (chartStep member) (tbl, cost)).2).length
        ≤ cost.length + sel.length := by
  intro sel
  induction sel with
  | nil => intro tbl cost; simp
  | cons e es ih =>
    intro tbl cost
    rw [List.foldl_cons]
    calc ((es.foldl (chartStep member) (chartStep member (tbl, cost) e)).2).length
        ≤ (chartStep member (tbl, cost) e).2.length + es.length := by
          have := ih (chartStep member (tbl, cost) e).1
            (chartStep member (tbl, cost) e).2
          simpa using this
      _ ≤ cost.length + 1 + es.length := by
          have := costInsert_length_le (getOrAssign tbl e.function).1 (member e) cost
          rw [chartStep]
          simp only []
          omega
      _ = cost.length + (e :: es).length := by simp; omega

theorem costLookup_isSome_iff (m : List (Nat × Nat)) (j : Nat) :
    (costLookup m j).isSome = true ↔ j ∈ m.map Prod.fst := by
  rw [costLookup]
  cases hf : m.find? (fun e => decide (e.1 = j)) with
  | none =>
    simp only [Option.map_none', Option.isSome_none, Bool.false_eq_true, false_iff]
    intro hj
    simp only [List.mem_map] at hj
    obtain ⟨e, he, hej⟩ := hj
    have := List.find?_eq_none.mp hf e he
    simp [hej] at this
  | some e =>
    simp only [Option.map_some', Option.isSome_some, true_iff]
    have hmem := List.mem_of_find?_eq_some hf
    have hp := List.find?_some hf
    simp only [decide_eq_true_eq] at hp
    rw [← hp]
    exact List.mem_map_of_mem Prod.fst hmem

theorem costInsert_keys (k v : Nat) (m : List (Nat × Nat)) :
    (costInsert k v m).map Prod.fst
      = if m.any (fun e => e.1 = k) then m.map Prod.fst
        else m.map Prod.fst ++ [k] := by
  rw [costInsert]
  by_cases h : m.any (fun e => e.1 = k)
  · rw [if_pos h, if_pos h, List.map_map]
    refine List.map_congr_left ?_
    intro e _
    by_cases hek : e.1 = k
    · simp [hek]
    · simp [hek]
  · rw [if_neg h, if_neg h, List.map_append]
    rfl

theorem costLookup_isSome_costInsert {m : List (Nat × Nat)} {j : Nat}
    (h : (costLookup m j).isSome = true) (k v : Nat) :
    (costLookup (costInsert k v m) j).isSome = true := by
  rw [costLookup_isSome_iff] at h ⊢
  rw [costInsert_keys]
  by_cases hk : m.any (fun e => e.1 = k)
  · rw [if_pos hk]; exact h
  · rw [if_neg hk]; exact List.mem_append_left _ h

theorem chartFold_lookup_zero (member : ChartMergeData → Nat) :
    ∀ (sel : List ChartMergeData) (tbl : List (String × Nat))
      (cost : List (Nat × Nat)),
      (costLookup cost 0).isSome = true →
      (costLookup ((sel.foldl (chartStep member) (tbl, cost)).2) 0).isSome = true := by
  intro sel
  induction sel with
  | nil => intro tbl cost h; exact h
  | cons e es ih =>
    intro tbl cost h
    rw [List.foldl_cons]
    exact ih _ _ (costLookup_isSome_costInsert h _ _)

theorem topEntries_length_le (member : ChartMergeData → Nat)
    (md : List ChartMergeData) : (topEntries member md).length ≤ 10 := by
  rw [topEntries]
  refine le_trans (List.Sublist.length_le (List.takeWhile_sublist _)) ?_
  rw [List.length_take]
  exact min_le_left _ _

/-- The shape invariant of the three charts: a null origin row at the
front, at most 11 entries per row, and the id-0 total present in every
row emitted by a timestamp event. -/
def ChartRowsOk (c : ChartDataWithLabels) : Prop :=
  c.rows.head? = some ⟨0, []⟩
    ∧ (∀ r ∈ c.rows, r.cost.length ≤ 11)
    ∧ ∀ r ∈ c.rows.drop 1, (costLookup r.cost 0).isSome = true

theorem addChartData_rowsOk (member : ChartMergeData → Nat)
    (md : List ChartMergeData) (stamp tot : Nat) {data : ChartDataWithLabels}
    (h : ChartRowsOk data) : ChartRowsOk (addChartData member md stamp tot data) := by
  obtain ⟨hhead, hlen, hzero⟩ := h
  have hne : data.rows ≠ [] := by
    intro hc
    rw [hc] at hhead
    cases hhead
  have hrows : (addChartData member md stamp tot data).rows
      = data.rows ++ [⟨stamp, ((topEntries member md).foldl (chartStep member)
          (data.labelIds, costInsert 0 tot [])).2⟩] := rfl
  have hrowlen : (((topEntries member md).foldl (chartStep member)
      (data.labelIds, costInsert 0 tot [])).2).length ≤ 11 := by
    have h1 := chartFold_cost_length member (topEntries member md)
      data.labelIds (costInsert 0 tot [])
    have h2 := topEntries_length_le member md
    have h3 : (costInsert 0 tot ([] : List (Nat × Nat))).length = 1 := rfl
    omega
  have hrowzero : (costLookup (((topEntries member md).foldl (chartStep member)
      (data.labelIds, costInsert 0 tot [])).2) 0).isSome = true := by
    refine chartFold_lookup_zero member _ _ _ ?_
    rfl
  refine ⟨?_, ?_, ?_⟩
  · rw [hrows]
    cases hd : data.rows with
    | nil => exact absurd hd hne
    | cons r rs =>
      rw [hd] at hhead
      simpa using hhead
  · rw [hrows]
    intro r hr
    rcases List.mem_append.mp hr with hr | hr
    · exact hlen r hr
    · rw [List.mem_singleton.mp hr]
      exact hrowlen
  · rw [hrows]
    intro r hr
    rw [List.drop_append_of_le_length (by
      cases hd : data.rows with
      | nil => exact absurd hd hne
      | cons x xs => simp)] at hr
    rcases List.mem_append.mp hr with hr | hr
    · exact hzero r hr
    · rw [List.mem_singleton.mp hr]
      exact hrowzero

theorem chartRowsOk_processEvents :
    ∀ (evs : List ParserEvent) (s : ParserData),
      ChartRowsOk s.consumedChartData → ChartRowsOk s.allocatedChartData →
      ChartRowsOk s.allocationsChartData →
      ChartRowsOk (processEvents s evs).consumedChartData
      ∧ ChartRowsOk (processEvents s evs).allocatedChartData
      ∧ ChartRowsOk (processEvents s evs).allocationsChartData := by
  intro evs
  induction evs with
  | nil => intro s h1 h2 h3; exact ⟨h1, h2, h3⟩
  | cons e es ih =>
    intro s h1 h2 h3
    rw [processEvents, List.foldl_cons, ← processEvents]
    cases e with
    | timeStamp ev =>
      exact ih _ (addChartData_rowsOk _ _ _ _ h1) (addChartData_rowsOk _ _ _ _ h2)
        (addChartData_rowsOk _ _ _ _ h3)
    | allocation l => exact ih _ h1 h2 h3

theorem maxConsumed_processEvents :
    ∀ (evs : List ParserEvent) (s : ParserData),
      (processEvents s evs).maxConsumedSinceLastTimeStamp
        = specWatermark s.maxConsumedSinceLastTimeStamp evs := by
  intro evs
  induction evs with
  | nil => intro s; rfl
  | cons e es ih =>
    intro s
    rw [processEvents, List.foldl_cons, ← processEvents]
    cases e with
    | timeStamp ev =>
      rw [show processEvent s (.timeStamp ev) = handleTimeStamp s ev from rfl, ih]
      rfl
    | allocation l =>
      rw [show processEvent s (.allocation l) = handleAllocation s l from rfl, ih]
      rfl

/-! ## The claims -/

/-- Claim C2: for every node of the bottom-up forest returned by
`mergeAllocations` — i.e. every realized depth-and-Location path — its
four cost fields equal the elementwise sum of the cost fields of exactly
those allocation records whose walked call stack (leaf frame toward the
root, stopping after the first boundary frame or at the chain's end)
passes through that node's path, that is, shares that exact call-path
prefix. -/
theorem bottomUp_node_cost_invariant (d : TraceData) (p : List LocationData)
    (r : RowData) (h : findPath (mergeAllocations d) p = some r) :
    r.costs = allocCostSum (d.allocations.filter
      fun a => decide (p <+: tracePath d a.traceIndex)) := by
  have hdedup := mergeAllocations_dedup d
  have hp : p ≠ [] := findPath_ne_nil h
  rw [← costAt_eq_of_findPath p (mergeAllocations d) r hdedup h]
  exact costAt_mergeAllocations d p hp

/-- Claim C3: the top-down inversion adds, at every path of its output,
exactly the contributions the spec mandates — each childless bottom-up
row (leaf) contributes its own aggregated totals at every level of its
upward chain from its own Location to the outermost caller (nodes being
created zero-initialised as needed), and rows with children contribute
nothing directly, being only recursed into. -/
theorem topDown_inversion_leaf_contributions (bu : List RowData)
    (q : List LocationData) :
    costAt (toTopDownData bu) q = specLeafContributionSum q bu [] := by
  rw [toTopDownData, costAt_buildTopDown (sizeOf bu) bu le_rfl [] [] q,
    costAt_nil, zero_add]

/-- Claim C4: in both forests, no two rows of any sibling set share a
Location. -/
theorem sibling_sets_duplicate_free (d : TraceData) :
    forestDedup (mergeAllocations d) = true
    ∧ forestDedup (toTopDownData (mergeAllocations d)) = true := by
  refine ⟨mergeAllocations_dedup d, ?_⟩
  rw [toTopDownData]
  exact forestDedup_buildTopDown (sizeOf (mergeAllocations d)) _ le_rfl [] []
    forestDedup_nil

/-- Claim C5 (amended): the bottom-up forest keeps every sibling set
strictly sorted by Location; the top-down forest's sibling sets are
duplicate-free but appear in first-encounter order, not sorted order. -/
theorem bottomUp_sorted_topDown_dedup (d : TraceData) :
    forestSorted (mergeAllocations d) = true
    ∧ forestDedup (toTopDownData (mergeAllocations d)) = true := by
  refine ⟨mergeAllocations_sorted d, ?_⟩
  rw [toTopDownData]
  exact forestDedup_buildTopDown (sizeOf (mergeAllocations d)) _ le_rfl [] []
    forestDedup_nil

/-- Claim C1 (amended): for a nonempty allocation set in which every
walked call path is nonempty and no walked path is a proper prefix of
another's, the elementwise sums of the four cost fields over the
root-level rows of the bottom-up and of the top-down forest both equal
the sum over all input allocation records. -/
theorem conservation (d : TraceData)
    (hne : d.allocations ≠ [])
    (hpaths : ∀ a ∈ d.allocations, tracePath d a.traceIndex ≠ [])
    (hanti : ∀ a ∈ d.allocations, ∀ b ∈ d.allocations,
        tracePath d a.traceIndex <+: tracePath d b.traceIndex →
        tracePath d a.traceIndex = tracePath d b.traceIndex) :
    rootCostSum (mergeAllocations d) = allocCostSum d.allocations
    ∧ rootCostSum (toTopDownData (mergeAllocations d)) = allocCostSum d.allocations := by
  have hfil : d.allocations.filter (fun a => !(tracePath d a.traceIndex).isEmpty)
      = d.allocations := by
    refine List.filter_eq_self.mpr ?_
    intro a ha
    cases hp : tracePath d a.traceIndex with
    | nil => exact absurd hp (hpaths a ha)
    | cons x xs => rfl
  constructor
  · rw [rootCostSum_mergeAllocations d, hfil]
  · rw [toTopDownData, rootCostSum_buildTopDown (sizeOf (mergeAllocations d)) _
      le_rfl [] [], rootCostSum_nil, zero_add]
    exact forestLeafSum_mergeAllocations d hpaths hanti

/-! Concrete instances for the tree claims. -/

/-- Counterexample data for the conservation claim as stated: one
allocation whose walked path `[X]` is a proper prefix of the other's
`[X, Y]`. -/
def exC1 : TraceData :=
  { strings := ["X", "Y"],
    ips := [⟨0, 1, 0, 0, 0⟩, ⟨0, 2, 0, 0, 0⟩],
    traces := [⟨1, 0⟩, ⟨2, 0⟩, ⟨1, 2⟩],
    stopIndices := [],
    allocations := [⟨1, 1, 1, 5, 5⟩, ⟨3, 1, 1, 3, 3⟩] }

/-- Claim C1, counterexample to the claim as stated: a nonempty
allocation set whose bottom-up root-level cost sum differs from the
top-down root-level cost sum (the `[X]` allocation's costs sit in an
interior bottom-up node and are dropped by the leaf-driven inversion). -/
theorem conservation_counterexample :
    exC1.allocations ≠ []
    ∧ rootCostSum (mergeAllocations exC1)
        ≠ rootCostSum (toTopDownData (mergeAllocations exC1)) := by
  constructor
  · simp [exC1]
  · have h1 : rootCostSum (mergeAllocations exC1) = ⟨2, 2, 8, 8⟩ := by
      simp +decide [exC1, mergeAllocations, insertPath, tracePath, tracePathAux,
        TraceData.findTrace, TraceData.findIp, TraceData.isStopIndex, locationOf,
        funcOf, fileOf, moduleOf, stringify, rootCostSum, locLt, strLtB, charsLtB,
        RowData.location, RowData.children, RowData.costs, Costs.add_def]
    have h2 : rootCostSum (toTopDownData (mergeAllocations exC1)) = ⟨1, 1, 3, 3⟩ := by
      simp +decide [exC1, mergeAllocations, insertPath, tracePath, tracePathAux,
        TraceData.findTrace, TraceData.findIp, TraceData.isStopIndex, locationOf,
        funcOf, fileOf, moduleOf, stringify, toTopDownData, buildTopDown, addChain,
        rootCostSum, locLt, strLtB, charsLtB, RowData.location, RowData.children,
        RowData.costs, Costs.add_def]
    rw [h1, h2]
    decide

/-- Witness data: the spec's own example — two allocations sharing the
call path `main → A → B` with `main` as the boundary frame. -/
def exSpec : TraceData :=
  { strings := ["main", "A", "B"],
    ips := [⟨0, 1, 0, 0, 0⟩, ⟨0, 2, 0, 0, 0⟩, ⟨0, 3, 0, 0, 0⟩],
    traces := [⟨1, 0⟩, ⟨2, 1⟩, ⟨3, 2⟩],
    stopIndices := [1],
    allocations := [⟨3, 1, 100, 100, 100⟩, ⟨3, 1, 50, 0, 50⟩] }

theorem conservation_witness :
    (exSpec.allocations ≠ []
      ∧ (∀ a ∈ exSpec.allocations, tracePath exSpec a.traceIndex ≠ [])
      ∧ (∀ a ∈ exSpec.allocations, ∀ b ∈ exSpec.allocations,
          tracePath exSpec a.traceIndex <+: tracePath exSpec b.traceIndex →
          tracePath exSpec a.traceIndex = tracePath exSpec b.traceIndex))
    ∧ (rootCostSum (mergeAllocations exSpec) = allocCostSum exSpec.allocations
        ∧ rootCostSum (toTopDownData (mergeAllocations exSpec))
            = allocCostSum exSpec.allocations) := by
  refine ⟨⟨by simp [exSpec], by decide, by decide⟩, ?_⟩
  exact conservation exSpec (by simp [exSpec]) (by decide) (by decide)

/-- Witness data for the bottom-up node invariant. -/
def exC2 : TraceData :=
  { strings := ["main", "A", "B"],
    ips := [⟨0, 1, 0, 0, 0⟩, ⟨0, 2, 0, 0, 0⟩, ⟨0, 3, 0, 0, 0⟩],
    traces := [⟨1, 0⟩, ⟨2, 1⟩, ⟨3, 2⟩],
    stopIndices := [1],
    allocations := [⟨3, 1, 100, 100, 100⟩, ⟨3, 1, 50, 0, 50⟩] }

def exC2path : List LocationData :=
  [⟨"B", "", "", 0⟩, ⟨"A", "", "", 0⟩, ⟨"main", "", "", 0⟩]

theorem bottomUp_node_cost_invariant_witness :
    findPath (mergeAllocations exC2) exC2path
        = some ⟨⟨2, 150, 100, 150⟩, ⟨"main", "", "", 0⟩, []⟩
    ∧ (⟨⟨2, 150, 100, 150⟩, ⟨"main", "", "", 0⟩, []⟩ : RowData).costs
        = allocCostSum (exC2.allocations.filter
            fun a => decide (exC2path <+: tracePath exC2 a.traceIndex)) := by
  have hfind : findPath (mergeAllocations exC2) exC2path
      = some ⟨⟨2, 150, 100, 150⟩, ⟨"main", "", "", 0⟩, []⟩ := by
    simp +decide [exC2, exC2path, mergeAllocations, insertPath, tracePath,
      tracePathAux, TraceData.findTrace, TraceData.findIp, TraceData.isStopIndex,
      locationOf, funcOf, fileOf, moduleOf, stringify, findPath, locLt, strLtB,
      charsLtB, RowData.location, RowData.children, RowData.costs, Costs.add_def]
  exact ⟨hfind, bottomUp_node_cost_invariant exC2 exC2path _ hfind⟩

/-- Counterexample data for the ordering claim: two stacks `B ← Z` and
`C ← A` whose top-down roots appear in first-encounter order `Z, A`. -/
def exC5 : TraceData :=
  { strings := ["B", "Z", "C", "A"],
    ips := [⟨0, 1, 0, 0, 0⟩, ⟨0, 2, 0, 0, 0⟩, ⟨0, 3, 0, 0, 0⟩, ⟨0, 4, 0, 0, 0⟩],
    traces := [⟨2, 0⟩, ⟨1, 1⟩, ⟨4, 0⟩, ⟨3, 3⟩],
    stopIndices := [],
    allocations := [⟨2, 1, 1, 1, 1⟩, ⟨4, 1, 1, 1, 1⟩] }

/-- Claim C5, counterexample to the claim as stated: the top-down
forest's root sibling set is not sorted by Location. -/
theorem topDown_not_sorted_counterexample :
    forestSorted (toTopDownData (mergeAllocations exC5)) = false := by
  simp +decide [exC5, mergeAllocations, insertPath, tracePath, tracePathAux,
    TraceData.findTrace, TraceData.findIp, TraceData.isStopIndex, locationOf,
    funcOf, fileOf, moduleOf, stringify, toTopDownData, buildTopDown, addChain,
    forestSorted, locLt, strLtB, charsLtB, RowData.location, RowData.children,
    RowData.costs, Costs.add_def]

/-- Claim C6 (amended): after a full pass from the freshly constructed
parser state, each metric's chart holds one row per timestamp-boundary
event plus the null origin row the constructor pushed, i.e.
`countTimeStamps evs + 1` rows rather than `countTimeStamps evs`. -/
theorem chart_row_count (evs : List ParserEvent) :
    (processEvents initParserData evs).consumedChartData.rows.length
        = countTimeStamps evs + 1
    ∧ (processEvents initParserData evs).allocatedChartData.rows.length
        = countTimeStamps evs + 1
    ∧ (processEvents initParserData evs).allocationsChartData.rows.length
        = countTimeStamps evs + 1 := by
  obtain ⟨h1, h2, h3⟩ := processEvents_rows_length evs initParserData
  refine ⟨?_, ?_, ?_⟩
  · rw [h1]
    show 1 + countTimeStamps evs = countTimeStamps evs + 1
    omega
  · rw [h2]
    show 1 + countTimeStamps evs = countTimeStamps evs + 1
    omega
  · rw [h3]
    show 1 + countTimeStamps evs = countTimeStamps evs + 1
    omega

def exC6ev : TimeStampEvent :=
  ⟨5, ⟨[], [], [], [], []⟩, 0, 0, 0⟩

/-- Claim C6, counterexample to the claim as stated: after one
timestamp-boundary event the chart holds two rows (the constructor's
origin row plus the emitted one), not one. -/
theorem chart_row_count_counterexample :
    (processEvents initParserData
        [ParserEvent.timeStamp exC6ev]).consumedChartData.rows.length
      ≠ countTimeStamps [ParserEvent.timeStamp exC6ev] := by
  decide

/-- Claim C7 (amended): after any full pass from the constructed state,
every chart row of each metric holds at most 11 cost entries, and every
row apart from the constructor's null origin row — which stays at the
front with an empty cost map and hence no id-0 entry — holds an entry at
label-id 0. -/
theorem chart_row_bounds (evs : List ParserEvent) :
    ChartRowsOk (processEvents initParserData evs).consumedChartData
    ∧ ChartRowsOk (processEvents initParserData evs).allocatedChartData
    ∧ ChartRowsOk (processEvents initParserData evs).allocationsChartData := by
  have hinit : ChartRowsOk initParserData.consumedChartData := by
    refine ⟨rfl, ?_, ?_⟩
    · intro r hr
      rw [show initParserData.consumedChartData.rows = [⟨0, []⟩] from rfl] at hr
      rw [List.mem_singleton.mp hr]
      simp
    · intro r hr
      rw [show initParserData.consumedChartData.rows.drop 1 = [] from rfl] at hr
      cases hr
  exact chartRowsOk_processEvents evs initParserData hinit hinit hinit

def exC7ev : TimeStampEvent :=
  ⟨7, ⟨[], [], [], [], []⟩, 3, 4, 5⟩

/-- Claim C7, counterexample to the claim as stated: after a
timestamp-boundary event the chart still holds the constructor's null
origin row, and that row has no entry at label-id 0. -/
theorem chart_origin_row_counterexample :
    ∃ r ∈ (processEvents initParserData
        [ParserEvent.timeStamp exC7ev]).consumedChartData.rows,
      (costLookup r.cost 0).isSome = false := by
  decide

/-- Claim C8 (amended): at every timestamp-boundary event reached from
the constructed state — provided no allocation's resolved leaf-frame
function equals the reserved "total" label — each metric's chart gains
exactly one row holding the metric's total at id 0 followed by exactly
the entries of the merged per-function summary sorted descending by that
metric, cut to at most ten and stopped at the first zero, each at its
label id; the id-0 value is the live-bytes watermark since the previous
boundary (`max` of the accumulated watermark and the event's leaked
value) for the consumed metric, and the running grand totals for the
allocated and allocation-count metrics. -/
theorem chart_row_content (evs : List ParserEvent) (ev : TimeStampEvent)
    (hok : ∀ e ∈ evs, eventOk e) (hnt : noTotal ev.d) :
    (handleTimeStamp (processEvents initParserData evs) ev).consumedChartData.rows
      = (processEvents initParserData evs).consumedChartData.rows
        ++ [⟨ev.newStamp,
            (0, max (specWatermark 0 evs) ev.leaked)
              :: (topEntries (fun e => e.consumed) (buildMergedData ev.d)).map
                (fun e => ((lookupId (handleTimeStamp (processEvents initParserData
                      evs) ev).consumedChartData.labelIds e.function).getD 0,
                  e.consumed))⟩]
    ∧ (handleTimeStamp (processEvents initParserData evs) ev).allocatedChartData.rows
      = (processEvents initParserData evs).allocatedChartData.rows
        ++ [⟨ev.newStamp,
            (0, ev.totalAllocated)
              :: (topEntries (fun e => e.allocated) (buildMergedData ev.d)).map
                (fun e => ((lookupId (handleTimeStamp (processEvents initParserData
                      evs) ev).allocatedChartData.labelIds e.function).getD 0,
                  e.allocated))⟩]
    ∧ (handleTimeStamp (processEvents initParserData
          evs) ev).allocationsChartData.rows
      = (processEvents initParserData evs).allocationsChartData.rows
        ++ [⟨ev.newStamp,
            (0, ev.totalAllocations)
              :: (topEntries (fun e => e.allocations) (buildMergedData ev.d)).map
                (fun e => ((lookupId (handleTimeStamp (processEvents initParserData
                      evs) ev).allocationsChartData.labelIds e.function).getD 0,
                  e.allocations))⟩] := by
  obtain ⟨h1, h2, h3⟩ :=
    ChartsWF_processEvents evs initParserData ChartsWF_init hok
  have hmax : max (processEvents
        initParserData evs).maxConsumedSinceLastTimeStamp ev.leaked
      = max (specWatermark 0 evs) ev.leaked := by
    rw [maxConsumed_processEvents]
    rfl
  refine ⟨?_, ?_, ?_⟩
  · rw [← hmax]
    exact (addChartData_spec (fun e => e.consumed) (buildMergedData ev.d)
      ev.newStamp
      (max (processEvents initParserData evs).maxConsumedSinceLastTimeStamp
        ev.leaked)
      (processEvents initParserData evs).consumedChartData h1
      (topEntries_noTotal hnt) (topEntries_nodup _ _)).2
  · exact (addChartData_spec (fun e => e.allocated) (buildMergedData ev.d)
      ev.newStamp ev.totalAllocated
      (processEvents initParserData evs).allocatedChartData h2
      (topEntries_noTotal hnt) (topEntries_nodup _ _)).2
  · exact (addChartData_spec (fun e => e.allocations) (buildMergedData ev.d)
      ev.newStamp ev.totalAllocations
      (processEvents initParserData evs).allocationsChartData h3
      (topEntries_noTotal hnt) (topEntries_nodup _ _)).2

/-- Witness data: one prior allocation event (watermark 7) and a boundary
snapshot with a single allocation resolving to function `f`. -/
def exC8d : TraceData :=
  { strings := ["f"],
    ips := [⟨0, 1, 0, 0, 0⟩],
    traces := [⟨1, 0⟩],
    stopIndices := [],
    allocations := [⟨1, 2, 10, 10, 20⟩] }

def exC8ev : TimeStampEvent := ⟨9, exC8d, 6, 20, 2⟩

def exC8evs : List ParserEvent := [ParserEvent.allocation 7]

theorem chart_row_content_witness :
    ((∀ e ∈ exC8evs, eventOk e) ∧ noTotal exC8ev.d)
    ∧ ((handleTimeStamp (processEvents initParserData exC8evs)
          exC8ev).consumedChartData.rows
        = (processEvents initParserData exC8evs).consumedChartData.rows
          ++ [⟨exC8ev.newStamp,
              (0, max (specWatermark 0 exC8evs) exC8ev.leaked)
                :: (topEntries (fun e => e.consumed)
                      (buildMergedData exC8ev.d)).map
                  (fun e => ((lookupId (handleTimeStamp (processEvents
                        initParserData exC8evs)
                        exC8ev).consumedChartData.labelIds e.function).getD 0,
                    e.consumed))⟩]
      ∧ (handleTimeStamp (processEvents initParserData exC8evs)
            exC8ev).allocatedChartData.rows
        = (processEvents initParserData exC8evs).allocatedChartData.rows
          ++ [⟨exC8ev.newStamp,
              (0, exC8ev.totalAllocated)
                :: (topEntries (fun e => e.allocated)
                      (buildMergedData exC8ev.d)).map
                  (fun e => ((lookupId (handleTimeStamp (processEvents
                        initParserData exC8evs)
                        exC8ev).allocatedChartData.labelIds e.function).getD 0,
                    e.allocated))⟩]
      ∧ (handleTimeStamp (processEvents initParserData exC8evs)
            exC8ev).allocationsChartData.rows
        = (processEvents initParserData exC8evs).allocationsChartData.rows
          ++ [⟨exC8ev.newStamp,
              (0, exC8ev.totalAllocations)
                :: (topEntries (fun e => e.allocations)
                      (buildMergedData exC8ev.d)).map
                  (fun e => ((lookupId (handleTimeStamp (processEvents
                        initParserData exC8evs)
                        exC8ev).allocationsChartData.labelIds e.function).getD 0,
                    e.allocations))⟩]) :=
  ⟨⟨by simp [exC8evs, eventOk], by simp only [noTotal]; decide⟩,
    chart_row_content exC8evs exC8ev (by simp [exC8evs, eventOk])
      (by simp only [noTotal]; decide)⟩

/-- Counterexample data: the single allocation's leaf frame resolves to
the literal name "total". -/
def exC8bad : TraceData :=
  { strings := ["total"],
    ips := [⟨0, 1, 0, 0, 0⟩],
    traces := [⟨1, 0⟩],
    stopIndices := [],
    allocations := [⟨1, 1, 1, 5, 5⟩] }

def exC8badEv : TimeStampEvent := ⟨3, exC8bad, 9, 9, 1⟩

/-- Claim C8, counterexample to the claim as stated: when an allocation's
resolved leaf function is literally the reserved "total" label, the
lookup-and-assign step rewrites its zero id to `size - 1 = 0` and the
entry overwrites the id-0 total — the emitted row carries the function's
own value at id 0 instead of the live-bytes watermark. -/
theorem chart_row_content_counterexample :
    costLookup ((handleTimeStamp initParserData
        exC8badEv).consumedChartData.rows.getD 1 ⟨0, []⟩).cost 0
      ≠ some (max initParserData.maxConsumedSinceLastTimeStamp
          exC8badEv.leaked) := by
  decide

/-- Claim C9: string resolution is total and absorbs bad indices —
`stringify` yields the empty string on a zero or out-of-range index and
the table entry at position `index - 1` otherwise; `file` yields the
empty string on a zero file index and resolves through `stringify`
otherwise, as does `module`; every resolver is a total function, so no
unresolvable index interrupts aggregation. -/
theorem string_resolution_total (strings : List String) (index : Nat)
    (ip : InstructionPointer) :
    (index = 0 ∨ strings.length < index → stringify strings index = "")
    ∧ (index ≠ 0 → index ≤ strings.length →
        stringify strings index = strings.getD (index - 1) "")
    ∧ (ip.fileIndex = 0 → fileOf strings ip = "")
    ∧ (ip.fileIndex ≠ 0 → fileOf strings ip = stringify strings ip.fileIndex)
    ∧ moduleOf strings ip = stringify strings ip.moduleIndex := by
  refine ⟨?_, ?_, ?_, ?_, rfl⟩
  · intro h
    rw [stringify, if_pos h]
  · intro h1 h2
    rw [stringify, if_neg (by omega)]
  · intro h
    rw [fileOf, if_neg (by simp [h])]
  · intro h
    rw [fileOf, if_pos h]

theorem string_resolution_total_witness :
    (((0 : Nat) = 0 ∨ (["a", "b", "c"] : List String).length < 0)
        → stringify ["a", "b", "c"] 0 = "")
    ∧ ((3 : Nat) ≠ 0 ∧ 3 ≤ (["a", "b", "c"] : List String).length
        ∧ stringify ["a", "b", "c"] 3 = (["a", "b", "c"] : List String).getD 2 "")
    ∧ ((⟨0, 0, 0, 0, 0⟩ : InstructionPointer).fileIndex = 0
        ∧ fileOf ["a", "b", "c"] ⟨0, 0, 0, 0, 0⟩ = "") :=
  ⟨(string_resolution_total ["a", "b", "c"] 0 ⟨0, 0, 0, 0, 0⟩).1,
    ⟨by decide, by decide,
      (string_resolution_total ["a", "b", "c"] 3 ⟨0, 0, 0, 0, 0⟩).2.1
        (by decide) (by decide)⟩,
    ⟨rfl, (string_resolution_total ["a", "b", "c"] 0
        ⟨0, 0, 0, 0, 0⟩).2.2.1 rfl⟩⟩

/-- Claim C10: after any event sequence whose boundary snapshots resolve
no leaf function to the reserved "total" label, each metric's label table
is injective (distinct function names hold distinct ids), every
non-"total" function's id is at least 1, id 0 is held by the "total"
label alone, and the lookup-and-assign step reuses the existing id of a
function already present and otherwise appends the next unused id (the
table's size). -/
theorem label_table_invariants (evs : List ParserEvent)
    (hok : ∀ e ∈ evs, eventOk e) :
    ∀ tbl ∈ [(processEvents initParserData evs).consumedChartData.labelIds,
        (processEvents initParserData evs).allocatedChartData.labelIds,
        (processEvents initParserData evs).allocationsChartData.labelIds],
      (∀ f g i, lookupId tbl f = some i → lookupId tbl g = some i → f = g)
      ∧ (∀ f i, lookupId tbl f = some i → f ≠ totalLabel → 1 ≤ i)
      ∧ lookupId tbl totalLabel = some 0
      ∧ (∀ e ∈ tbl, e.2 = 0 → e.1 = totalLabel)
      ∧ (∀ f i, lookupId tbl f = some i → f ≠ totalLabel →
          getOrAssign tbl f = (i, tbl))
      ∧ ∀ f, lookupId tbl f = none →
          getOrAssign tbl f = (tbl.length, tbl ++ [(f, tbl.length)]) := by
  obtain ⟨h1, h2, h3⟩ :=
    ChartsWF_processEvents evs initParserData ChartsWF_init hok
  intro tbl htbl
  have hWF : WFTable tbl := by
    rcases List.mem_cons.mp htbl with rfl | htbl
    · exact h1
    rcases List.mem_cons.mp htbl with rfl | htbl
    · exact h2
    rcases List.mem_cons.mp htbl with rfl | htbl
    · exact h3
    exact absurd htbl (List.not_mem_nil _)
  exact ⟨fun f g i hf hg => lookupId_injective hWF hf hg,
    fun f i hf hft => Nat.one_le_iff_ne_zero.mpr (lookupId_ne_zero hWF hf hft),
    lookupId_total hWF, hWF.2.2.2,
    fun f i hf hft => getOrAssign_found hWF hf hft,
    fun f hf => getOrAssign_fresh hf⟩

theorem label_table_invariants_witness :
    (∀ e ∈ ([] : List ParserEvent), eventOk e)
    ∧ ((∀ f g i,
          lookupId (processEvents
              initParserData []).consumedChartData.labelIds f = some i →
          lookupId (processEvents
              initParserData []).consumedChartData.labelIds g = some i → f = g)
      ∧ (∀ f i,
          lookupId (processEvents
              initParserData []).consumedChartData.labelIds f = some i →
          f ≠ totalLabel → 1 ≤ i)
      ∧ lookupId (processEvents
          initParserData []).consumedChartData.labelIds totalLabel = some 0
      ∧ (∀ e ∈ (processEvents initParserData []).consumedChartData.labelIds,
          e.2 = 0 → e.1 = totalLabel)
      ∧ (∀ f i,
          lookupId (processEvents
              initParserData []).consumedChartData.labelIds f = some i →
          f ≠ totalLabel →
          getOrAssign (processEvents
              initParserData []).consumedChartData.labelIds f
            = (i, (processEvents initParserData []).consumedChartData.labelIds))
      ∧ ∀ f,
          lookupId (processEvents
              initParserData []).consumedChartData.labelIds f = none →
          getOrAssign (processEvents
              initParserData []).consumedChartData.labelIds f
            = ((processEvents initParserData []).consumedChartData.labelIds.length,
              (processEvents initParserData []).consumedChartData.labelIds
                ++ [(f, (processEvents
                    initParserData []).consumedChartData.labelIds.length)])) :=
  ⟨by simp,
    label_table_invariants [] (by simp)
      (processEvents initParserData []).consumedChartData.labelIds
      (List.mem_cons_self _ _)⟩

end Heaptrack